import Mathlib

/-!
# Verification of the my-clox core against its specification

Shallow embedding of the clox-style bytecode compiler / VM found under
`src/` (files `table.c`, `object.c`, `chunk.c`, `vm.c`, `compiler.c`,
headers `table.h`, `value.h`, `object.h`).  C machine integers are
modelled with `Nat`/`Int` (the counts and capacities involved never
reach 2^31 in any behaviour we reason about, and the 32-bit string
hashes are reduced `% 2^32` where the source relies on `uint32_t`
wraparound).  C `double` number payloads are modelled with `ℚ`;
none of the verified claims depends on floating-point rounding.
Fallible or possibly non-terminating C code (unbounded probe loops,
out-of-bounds reads whose value the C standard leaves undefined) is
modelled with `Option`: a `none` result marks an execution on which the
C program has no defined result.
-/

namespace Clox

/-- Heap object payload of an `ObjString` (object.h: `length`, `chars`,
`hash`).  `chars` is the byte array; the stored `length` always equals
`chars.length` in the source (both are set together in
`allocateString`), so we keep only `chars`.  `hash` is the cached
32-bit FNV-1a hash. -/
structure ObjData where
  hash : Nat
  chars : List Nat
  deriving DecidableEq, Repr

/-- The VM's object heap: `ObjString` objects indexed by allocation
order.  A C `ObjString*` pointer is modelled as an index into this
list; pointer equality is index equality.  Objects are immutable after
allocation, matching the source. -/
abbrev Heap : Type := List ObjData

/-- Dereference an `ObjString*`.  The default is irrelevant: every
pointer stored by the modelled code is in bounds. -/
def deref (H : Heap) (p : Nat) : ObjData :=
  List.getD H p ⟨0, []⟩

/-- Runtime values (value.h): tagged union with nil / boolean / number /
object-pointer variants.  Numbers (C `double`) are modelled as `ℚ`. -/
inductive Value where
  | vNil : Value
  | vBool : Bool → Value
  | vNum : ℚ → Value
  | vObj : Nat → Value
  deriving DecidableEq, Repr

/-- One bucket of the hash table (table.h `Entry`): a key that is an
`ObjString*` or NULL, and a value.  State classification (table.c):
empty = key NULL and value nil; tombstone = key NULL and value non-nil
(the code writes `BOOL_VAL(true)`); live = key non-NULL. -/
structure Entry where
  key : Option Nat
  value : Value
  deriving DecidableEq, Repr

/-- The all-NULL entry `adjustCapacity` initialises fresh buckets to. -/
def emptyEntry : Entry := ⟨none, Value.vNil⟩

/-- table.h `Table`: element count (live + tombstones), bucket-array
capacity, bucket array. -/
structure Table where
  count : Nat
  capacity : Nat
  entries : List Entry
  deriving DecidableEq, Repr

/-- table.c `initTable`: zero counts, no buckets. -/
def initTable : Table := ⟨0, 0, []⟩

/-- The probe loop of table.c `findEntry`, starting at bucket `index`
with `tomb` recording the first tombstone passed (the C local
`tombstone`).  The C loop is `for (;;)`; we give it `fuel` steps and
return `none` if the fuel runs out, which models the C loop failing to
terminate.  Every call in this file passes `fuel = cap`, and the table
invariant proved below shows that this suffices on all reachable
tables. -/
def findEntryAux (E : List Entry) (cap key : Nat) : Nat → Option Nat → Nat → Option Nat
  | _, _, 0 => none
  | index, tomb, fuel + 1 =>
    let e := List.getD E index emptyEntry
    match e.key with
    | none =>
      if e.value = Value.vNil then
        -- empty entry: reuse the remembered tombstone if there is one
        some (tomb.getD index)
      else
        -- tombstone: remember the first one and keep probing
        findEntryAux E cap key ((index + 1) % cap) (some (tomb.getD index)) fuel
    | some k =>
      if k = key then some index
      else findEntryAux E cap key ((index + 1) % cap) tomb fuel

/-- table.c `findEntry`.  The home bucket is `key->hash % capacity`;
with `capacity == 0` the C expression divides by zero (undefined
behaviour), modelled as `none`.  Key comparison is pointer equality,
hence equality of heap indices. -/
def findEntry (H : Heap) (E : List Entry) (cap key : Nat) : Option Nat :=
  if cap = 0 then none
  else findEntryAux E cap key ((deref H key).hash % cap) none cap

/-- table.c `tableGet`.  Result `some none` models `return false`
(key absent; the out-parameter is not written), `some (some v)` models
`return true` with `*value = v`. -/
def tableGet (H : Heap) (t : Table) (key : Nat) : Option (Option Value) :=
  if t.count = 0 then some none
  else
    match findEntry H t.entries t.capacity key with
    | none => none
    | some i =>
      let e := List.getD t.entries i emptyEntry
      match e.key with
      | none => some none
      | some _ => some (some e.value)

/-- memory.h `GROW_CAPACITY`. -/
def growCapacity (c : Nat) : Nat := if c < 8 then 8 else c * 2

/-- One iteration of `adjustCapacity`'s re-insertion loop: skip a
NULL-key bucket; otherwise probe the new array for the key and copy the
entry there, incrementing the recomputed count. -/
def rehashStep (H : Heap) (cap : Nat) (acc : Option (List Entry × Nat)) (e : Entry) :
    Option (List Entry × Nat) :=
  acc.bind fun s =>
    match e.key with
    | none => some s
    | some k => (findEntry H s.1 cap k).map fun i => (s.1.set i e, s.2 + 1)

/-- table.c `adjustCapacity`: allocate `cap` empty buckets, re-insert
every live entry of the old array (probing with `findEntry` on the new
array), recompute `count` from the live entries only. -/
def adjustCapacity (H : Heap) (t : Table) (cap : Nat) : Option Table :=
  (t.entries.foldl (rehashStep H cap) (some (List.replicate cap emptyEntry, 0))).map
    fun s => ⟨s.2, cap, s.1⟩

/-- table.c `tableSet`.  The growth test `count + 1 > capacity *
TABLE_MAX_LOAD` is computed on C doubles; since `capacity` is a power
of two (≥ 8) or zero, `capacity * 0.75` is exact and the test is
equivalent to `4 * (count + 1) > 3 * capacity`.  Returns the C function
result (`isNewKey`) and the new table. -/
def tableSetBody (t1 : Table) (key : Nat) (v : Value) (i : Nat) : Bool × Table :=
  let e := List.getD t1.entries i emptyEntry
  let isNew := e.key = none
  let newCount := if isNew ∧ e.value = Value.vNil then t1.count + 1 else t1.count
  (isNew, ⟨newCount, t1.capacity, t1.entries.set i ⟨some key, v⟩⟩)

def tableSet (H : Heap) (t : Table) (key : Nat) (v : Value) : Option (Bool × Table) :=
  (if 4 * (t.count + 1) > 3 * t.capacity then
      adjustCapacity H t (growCapacity t.capacity)
    else some t).bind fun t1 =>
    (findEntry H t1.entries t1.capacity key).map (tableSetBody t1 key v)

/-- table.c `tableDelete`: overwrite a present key's bucket with a
tombstone (`key = NULL`, `value = BOOL_VAL(true)`); `count` is not
changed. -/
def tableDelete (H : Heap) (t : Table) (key : Nat) : Option (Bool × Table) :=
  if t.count = 0 then some (false, t)
  else
    (findEntry H t.entries t.capacity key).bind fun i =>
      let e := List.getD t.entries i emptyEntry
      match e.key with
      | none => some (false, t)
      | some _ => some (true, ⟨t.count, t.capacity, t.entries.set i ⟨none, Value.vBool true⟩⟩)

/-- One iteration of `tableAddAll`'s loop: `tableSet` a live entry,
skip the rest. -/
def addAllStep (H : Heap) (acc : Option Table) (e : Entry) : Option Table :=
  acc.bind fun tt =>
    match e.key with
    | none => some tt
    | some k => (tableSet H tt k e.value).map Prod.snd

/-- table.c `tableAddAll`: `tableSet` every live entry of `src` into
`dst`, in bucket order. -/
def tableAddAll (H : Heap) (src dst : Table) : Option Table :=
  src.entries.foldl (addAllStep H) (some dst)

/-- The probe loop of table.c `tableFindString` (fuelled like
`findEntryAux`).  Stops with NULL at an empty non-tombstone bucket,
skips tombstones, and otherwise compares the candidate's length, hash
and bytes (`memcmp`) against the query. -/
def findStringAux (H : Heap) (E : List Entry) (cap : Nat) (chars : List Nat)
    (hash : Nat) : Nat → Nat → Option (Option Nat)
  | _, 0 => none
  | index, fuel + 1 =>
    let e := List.getD E index emptyEntry
    match e.key with
    | none =>
      if e.value = Value.vNil then some none
      else findStringAux H E cap chars hash ((index + 1) % cap) fuel
    | some kp =>
      let k := deref H kp
      if k.chars.length = chars.length ∧ k.hash = hash ∧ k.chars = chars then
        some (some kp)
      else findStringAux H E cap chars hash ((index + 1) % cap) fuel

/-- table.c `tableFindString`.  Returns `some (some p)` for "found the
interned string `p`", `some none` for `NULL`, and `none` when the C
code has no defined result (probe with `capacity == 0`, or a
non-terminating probe loop). -/
def tableFindString (H : Heap) (t : Table) (chars : List Nat) (hash : Nat) :
    Option (Option Nat) :=
  if t.count = 0 then some none
  else if t.capacity = 0 then none
  else findStringAux H t.entries t.capacity chars hash (hash % t.capacity) t.capacity

/-! ## Support definitions for reasoning about the probe sequence -/

/-- Bucket visited `j` steps after starting a linear probe at bucket
`home` (table.c advances `index = (index + 1) % capacity`). -/
def probe (cap home j : Nat) : Nat := (home + j) % cap

/-- The entry stored in bucket `i` (out-of-range reads, which never
happen on well-formed tables, yield the all-NULL entry). -/
def entryAt (E : List Entry) (i : Nat) : Entry := List.getD E i emptyEntry

/-- The key stored in bucket `i`. -/
def keyAt (E : List Entry) (i : Nat) : Option Nat := (entryAt E i).key

/-- An empty (never used or reset) bucket: NULL key, nil value. -/
def isEmptyE (e : Entry) : Prop := e.key = none ∧ e.value = Value.vNil

/-- A tombstone bucket: NULL key, non-nil value. -/
def isTombE (e : Entry) : Prop := e.key = none ∧ e.value ≠ Value.vNil

/-- Boolean test for a live bucket. -/
def liveB (e : Entry) : Bool := e.key.isSome

/-- Boolean test for a tombstone bucket. -/
def tombB (e : Entry) : Bool := decide (e.key = none ∧ e.value ≠ Value.vNil)

/-- Boolean test for an empty bucket. -/
def emptyB (e : Entry) : Bool := decide (e.key = none ∧ e.value = Value.vNil)

/-- Boolean test for a live bucket holding key `k`. -/
def keyMatches (k : Nat) (e : Entry) : Bool := decide (e.key = some k)

/-- Number of live (key-carrying) buckets. -/
def liveCount (E : List Entry) : Nat := E.countP liveB

/-- Number of tombstone buckets. -/
def tombCount (E : List Entry) : Nat := E.countP tombB

/-- Number of empty buckets. -/
def emptyCount (E : List Entry) : Nat := E.countP emptyB

/-- Key `k` is stored live somewhere in the bucket array. -/
def LiveInE (E : List Entry) (k : Nat) : Prop := ∃ e ∈ E, e.key = some k

/-- Key `k` is stored live with value `v`. -/
def LiveWith (E : List Entry) (k : Nat) (v : Value) : Prop :=
  ∃ e ∈ E, e.key = some k ∧ e.value = v

/-- The finite map a bucket array represents: the value of the first
(under the no-duplicates invariant: the only) live entry for `k`. -/
def lookupE (E : List Entry) (k : Nat) : Option Value :=
  (E.find? (keyMatches k)).map Entry.value

/-- The home bucket of key `k`. -/
def homeOf (H : Heap) (cap k : Nat) : Nat := (deref H k).hash % cap

/-- The probe from `k`'s home bucket can reach bucket `r` without
crossing an empty bucket: inserting `k` at `r` keeps `findEntry` able
to find it. -/
def InsertChain (E : List Entry) (cap home r : Nat) : Prop :=
  ∃ jr, jr < cap ∧ probe cap home jr = r ∧
    ∀ j', j' < jr → ¬ isEmptyE (entryAt E (probe cap home j'))

/-- The probe loop stops at step `j`: the bucket is empty, or holds the
probed-for key. -/
def StopAt (E : List Entry) (cap key home j : Nat) : Prop :=
  isEmptyE (entryAt E (probe cap home j)) ∨ keyAt E (probe cap home j) = some key

/-- Invariant of `findEntryAux`'s `tombstone` accumulator: if set, it
points at a NULL-key bucket that is a valid insertion point for the
probed-for key. -/
def TombOk (E : List Entry) (cap home : Nat) (tombOpt : Option Nat) : Prop :=
  ∀ q, tombOpt = some q → keyAt E q = none ∧ InsertChain E cap home q

/-- Structural well-formedness of a bucket array: correct length, no
duplicate live keys, and every live key reachable from its home bucket
without crossing an empty bucket (spec §3 invariant (iv)). -/
def EntriesWF (H : Heap) (E : List Entry) (cap : Nat) : Prop :=
  E.length = cap ∧
  (∀ i j k, i < cap → j < cap → keyAt E i = some k → keyAt E j = some k → i = j) ∧
  (∀ p k, p < cap → keyAt E p = some k → InsertChain E cap (homeOf H cap k) p)

/-- Well-formedness of a table, as maintained by every reachable state
of table.c (spec §3 invariants (i)-(iv)). -/
structure TableWF (H : Heap) (t : Table) : Prop where
  wf : EntriesWF H t.entries t.capacity
  capPow : t.capacity = 0 ∨ ∃ k, 3 ≤ k ∧ t.capacity = 2 ^ k
  countEq : t.count = liveCount t.entries + tombCount t.entries
  load : 4 * t.count ≤ 3 * t.capacity

/-- Operations for quantifying over "any sequence of table operations":
the mutating public operations of table.c.  `addAll`'s source table is
arbitrary—`tableAddAll` only reads its live entries. -/
inductive TableOp where
  | set : Nat → Value → TableOp
  | del : Nat → TableOp
  | addAll : Table → TableOp

/-- Apply one public mutating operation. -/
def runOp (H : Heap) (t : Table) : TableOp → Option Table
  | TableOp.set k v => (tableSet H t k v).map Prod.snd
  | TableOp.del k => (tableDelete H t k).map Prod.snd
  | TableOp.addAll src => tableAddAll H src t

/-- Apply a sequence of operations to a table. -/
def runOps (H : Heap) (t : Table) : List TableOp → Option Table
  | [] => some t
  | op :: ops => (runOp H t op).bind fun t1 => runOps H t1 ops

/-! ## String interning (object.c) -/

/-- object.c `hashString`: 32-bit FNV-1a over the bytes of the string
(`hash ^= (uint8_t)key[i]; hash *= 16777619;` with `uint32_t`
wraparound, modelled by reducing modulo `2^32`). -/
def hashString (chars : List Nat) : Nat :=
  chars.foldl (fun h b => ((h ^^^ (b % 256)) * 16777619) % 4294967296) 2166136261

/-- The VM state relevant to string allocation: the object heap and the
intern table `vm.strings`.  (The intrusive `vm.objects` list exists
only so `freeObjects` can release memory at shutdown; it is not
observable and is not modelled.) -/
structure StrState where
  heap : Heap
  strings : Table
  deriving Repr

/-- object.c `allocateString`: allocate the object (a fresh pointer,
modelled by the next heap index), store length/chars/hash, and intern
it with `tableSet(&vm.strings, string, NIL_VAL)`. -/
def allocateString (σ : StrState) (chars : List Nat) (hash : Nat) :
    Option (StrState × Nat) :=
  let p := σ.heap.length
  let H' := σ.heap ++ [⟨hash, chars⟩]
  (tableSet H' σ.strings p Value.vNil).map fun s => (⟨H', s.2⟩, p)

/-- object.c `copyString`: hash the bytes, return the canonical object
if the intern table already holds an equal string, otherwise copy the
bytes to a fresh buffer and allocate. -/
def copyString (σ : StrState) (chars : List Nat) : Option (StrState × Nat) :=
  let hash := hashString chars
  (tableFindString σ.heap σ.strings chars hash).bind fun r =>
    match r with
    | some p => some (σ, p)
    | none => allocateString σ chars hash

/-- object.c `takeString`: identical to `copyString` except that on an
intern hit it frees the caller's buffer instead of copying (buffer
ownership is not observable in the model). -/
def takeString (σ : StrState) (chars : List Nat) : Option (StrState × Nat) :=
  let hash := hashString chars
  (tableFindString σ.heap σ.strings chars hash).bind fun r =>
    match r with
    | some p => some (σ, p)
    | none => allocateString σ chars hash

/-- A string-creating call into object.c, with its byte-sequence
argument. -/
inductive InternOp where
  | copy : List Nat → InternOp
  | take : List Nat → InternOp

/-- The byte-sequence argument of an interning call. -/
def internArg : InternOp → List Nat
  | InternOp.copy b => b
  | InternOp.take b => b

/-- Apply one interning call. -/
def runIntern1 (σ : StrState) : InternOp → Option (StrState × Nat)
  | InternOp.copy b => copyString σ b
  | InternOp.take b => takeString σ b

/-- `initVM`: empty heap, freshly initialised `vm.strings`. -/
def initStr : StrState := ⟨[], initTable⟩

/-- Run a sequence of interning calls, collecting the returned
`ObjString*` of each call in order. -/
def runInterns : StrState → List InternOp → Option (StrState × List Nat)
  | σ, [] => some (σ, [])
  | σ, op :: ops =>
    (runIntern1 σ op).bind fun s =>
      (runInterns s.1 ops).map fun r => (r.1, s.2 :: r.2)

/-- Invariant of the intern state: the strings table is well formed,
every interned pointer is allocated, carries its own FNV-1a hash, and
no two distinct interned objects have equal contents. -/
def StrInv (σ : StrState) : Prop :=
  TableWF σ.heap σ.strings ∧
  (∀ e ∈ σ.strings.entries, ∀ p, e.key = some p → p < σ.heap.length) ∧
  (∀ e ∈ σ.strings.entries, ∀ p, e.key = some p →
    (deref σ.heap p).hash = hashString (deref σ.heap p).chars) ∧
  (∀ e1 ∈ σ.strings.entries, ∀ e2 ∈ σ.strings.entries, ∀ p q,
    e1.key = some p → e2.key = some q →
    (deref σ.heap p).chars = (deref σ.heap q).chars → p = q)

/-! ## Chunks (chunk.c) -/

/-- memory.h `GROW_CAPACITY` on the C `int` capacity of a chunk. -/
def growCapacityI (c : Int) : Int := if c < 8 then 8 else c * 2

/-- Pointwise update of a memory function. -/
def updF (f : Int → Int) (i v : Int) : Int → Int :=
  fun j => if j = i then v else f j

/-- chunk.h `Chunk` (code and line arrays).  The `code` and `lines`
arrays are modelled as total functions on `Int` addresses: reads of
slots the program never wrote — including chunk.c's out-of-bounds read
of `lines[-1]` on a fresh chunk — return whatever leftover values the
functions were initialised with, modelling the C arrays' undefined
initial contents.  The constant pool lives in the compiler model. -/
structure ChunkM where
  count : Int
  capacity : Int
  code : Int → Int
  lines : Int → Int

/-- chunk.c `initChunk`, parameterised by the leftover contents of the
memory the arrays will occupy. -/
def initChunkM (codeInit linesInit : Int → Int) : ChunkM :=
  ⟨0, 0, codeInit, linesInit⟩

/-- chunk.c `writeChunk`, translated statement by statement: grow if
`capacity < count + 1` (`GROW_ARRAY` preserves contents); then compare
the incoming `line` against `lines[count - 1]`; on a new line store the
line number at `lines[count]` and increment `count`, otherwise
increment `lines[count - 1]` in place; finally store the byte at
`code[count]` and increment `count`. -/
def writeChunkM (c : ChunkM) (byte line : Int) : ChunkM :=
  let cap := if c.capacity < c.count + 1 then growCapacityI c.capacity else c.capacity
  if ¬ line = c.lines (c.count - 1) then
    let c1 : ChunkM := ⟨c.count + 1, cap, c.code, updF c.lines c.count line⟩
    ⟨c1.count + 1, cap, updF c1.code c1.count byte, c1.lines⟩
  else
    let c1 : ChunkM := ⟨c.count, cap, c.code,
      updF c.lines (c.count - 1) (c.lines (c.count - 1) + 1)⟩
    ⟨c1.count + 1, cap, updF c1.code c1.count byte, c1.lines⟩

/-- Replay a list of `(byte, line)` `writeChunk` calls on a fresh
chunk. -/
def chunkOf (codeInit linesInit : Int → Int) (writes : List (Int × Int)) : ChunkM :=
  writes.foldl (fun c w => writeChunkM c w.1 w.2) (initChunkM codeInit linesInit)

/-! ## Opcodes

Modelled from the spec: the opcode numbering is that of `lib/chunk.h`,
which is absent from src/ (the stale `src/src/chunk.h` variant lacks
the variable, pop and print opcodes that vm.c and compiler.c use).  The
numbering follows the instruction listing of spec §4.2, which matches C
enum declaration order. -/

def OP_CONSTANT : Int := 0

def OP_NIL : Int := 1

def OP_TRUE : Int := 2

def OP_FALSE : Int := 3

def OP_POP : Int := 4

def OP_GET_LOCAL : Int := 5

def OP_SET_LOCAL : Int := 6

def OP_GET_GLOBAL : Int := 7

def OP_DEFINE_GLOBAL : Int := 8

def OP_SET_GLOBAL : Int := 9

def OP_EQUAL : Int := 10

def OP_GREATER : Int := 11

def OP_LESS : Int := 12

def OP_ADD : Int := 13

def OP_SUBTRACT : Int := 14

def OP_MULTIPLY : Int := 15

def OP_DIVIDE : Int := 16

def OP_NOT : Int := 17

def OP_NEGATE : Int := 18

def OP_PRINT : Int := 19

def OP_RETURN : Int := 20

/-! ## The VM (vm.c) -/

/-- The chunk as the VM sees it: byte stream, line array and constant
pool (the latter already interned into runtime `Value`s). -/
structure RChunk where
  count : Int
  code : Int → Int
  lines : Int → Int
  constants : List Value

/-- vm.h `InterpretResult`. -/
inductive InterpretResult where
  | INTERPRET_OK : InterpretResult
  | INTERPRET_COMPILE_ERROR : InterpretResult
  | INTERPRET_RUNTIME_ERROR : InterpretResult
  deriving DecidableEq, Repr

/-- vm.h `VM` plus the observable output channels: values printed by
`OP_PRINT` and messages printed to stderr by `runtimeError`.  The
stack is a list with its head at `stackTop`. -/
structure VMSt where
  chunk : RChunk
  ip : Int
  stack : List Value
  heap : Heap
  strings : Table
  globals : Table
  output : List Value
  errors : List String

/-- Modelled from the spec: `valuesEqual` (value.c is absent from
src/).  Spec §3: equality requires the same variant; numbers compare
numerically, booleans by value, nil equals nil, strings by object
identity. -/
def valuesEqual (a b : Value) : Bool :=
  match a, b with
  | Value.vNil, Value.vNil => true
  | Value.vBool x, Value.vBool y => x == y
  | Value.vNum x, Value.vNum y => decide (x = y)
  | Value.vObj p, Value.vObj q => p == q
  | _, _ => false

/-- vm.c `isFalsey`: `IS_NIL(value) || (IS_BOOL(value) && !AS_BOOL(value))`. -/
def isFalsey (v : Value) : Bool :=
  decide (v = Value.vNil) ||
    (match v with
     | Value.vBool b => !b
     | _ => false)

/-- value.h `IS_NUMBER`. -/
def isNumberV : Value → Bool
  | Value.vNum _ => true
  | _ => false

/-- object.h `IS_STRING` (every heap object of this core is an
`ObjString`). -/
def isStringV : Value → Bool
  | Value.vObj _ => true
  | _ => false

/-- A single apostrophe, used when building the C format strings. -/
def squote : String := String.mk [Char.ofNat 39]

/-- Render an `ObjString`'s bytes for an error message (`%s`). -/
def bytesToString (bs : List Nat) : String := String.mk (bs.map Char.ofNat)

/-- The message of vm.c's `runtimeError("Undefined variable" ...)`. -/
def undefinedVariableMsg (H : Heap) (p : Nat) : String :=
  "Undefined variable " ++ squote ++ bytesToString (deref H p).chars ++ squote ++ "."

/-- vm.c `runtimeError`: print the message and the `[line L] in
script` trailer (L read from `lines[ip - 1]`), then reset the stack. -/
def runtimeError (σ : VMSt) (msg : String) : VMSt :=
  { σ with
    errors := σ.errors ++
      [msg, "[line " ++ toString (σ.chunk.lines (σ.ip - 1)) ++ "] in script"],
    stack := [] }

/-- vm.c `READ_BYTE`: fetch `*ip++`.  A fetch outside the written
bytecode (`ip` not in `[0, count)`) reads unallocated or uninitialised
memory as an instruction; the model stops with `none` there. -/
def readByte (σ : VMSt) : Option (Int × VMSt) :=
  if 0 ≤ σ.ip ∧ σ.ip < σ.chunk.count then
    some (σ.chunk.code σ.ip, { σ with ip := σ.ip + 1 })
  else none

/-- vm.c `READ_CONSTANT`: index the constant pool with the next byte.
An out-of-range index reads past the constants array (undefined),
modelled as `none`. -/
def readConstant (σ : VMSt) : Option (Value × VMSt) :=
  (readByte σ).bind fun s =>
    if h : 0 ≤ s.1 ∧ s.1.toNat < s.2.chunk.constants.length then
      some (s.2.chunk.constants.get ⟨s.1.toNat, h.2⟩, s.2)
    else none

/-- vm.c `READ_STRING`: `AS_STRING(READ_CONSTANT())`.  Using it on a
non-object constant is undefined. -/
def readString (σ : VMSt) : Option (Nat × VMSt) :=
  (readConstant σ).bind fun s =>
    match s.1 with
    | Value.vObj p => some (p, s.2)
    | _ => none

/-- vm.c `push`.  Pushing onto a full 256-slot stack overflows the C
array (undefined), modelled as `none`. -/
def push (σ : VMSt) (v : Value) : Option VMSt :=
  if σ.stack.length < 256 then some { σ with stack := v :: σ.stack } else none

/-- vm.c `pop`.  Popping an empty stack reads below the stack array
(undefined), modelled as `none`. -/
def pop (σ : VMSt) : Option (Value × VMSt) :=
  match σ.stack with
  | [] => none
  | v :: rest => some (v, { σ with stack := rest })

/-- vm.c `peek(distance)`: read `stackTop[-1 - distance]` without
popping. -/
def peek (σ : VMSt) (distance : Nat) : Option Value :=
  σ.stack[distance]?

/-- vm.c `concatenate`: pop the two string operands, build the
concatenated buffer, hand it to `takeString`, push the result. -/
def concatenate (σ : VMSt) : Option VMSt :=
  match σ.stack with
  | Value.vObj bp :: Value.vObj ap :: rest =>
    (takeString ⟨σ.heap, σ.strings⟩ ((deref σ.heap ap).chars ++ (deref σ.heap bp).chars)).bind
      fun s =>
        (push { σ with heap := s.1.heap, strings := s.1.strings, stack := rest }
          (Value.vObj s.2))
  | _ => none

/-- Outcome of one iteration of the dispatch loop: continue, or leave
`run` with a result. -/
inductive StepRes where
  | next : VMSt → StepRes
  | halt : InterpretResult → VMSt → StepRes

/-- The `BINARY_OP` macro of vm.c: both operands must be numbers or
`"Operands must be numbers."` is reported; otherwise pop both and push
`f a b`. -/
def binaryNum (σ : VMSt) (f : ℚ → ℚ → Value) : Option StepRes :=
  (peek σ 0).bind fun v0 =>
    (peek σ 1).bind fun v1 =>
      match v0, v1 with
      | Value.vNum _, Value.vNum _ =>
        (pop σ).bind fun sb =>
          (pop sb.2).bind fun sa =>
            match sa.1, sb.1 with
            | Value.vNum a, Value.vNum b => (push sa.2 (f a b)).map StepRes.next
            | _, _ => none
      | _, _ =>
        some (StepRes.halt InterpretResult.INTERPRET_RUNTIME_ERROR
          (runtimeError σ "Operands must be numbers."))

/-- One iteration of vm.c `run`'s decode–dispatch loop, case for case.
The switch statement has no case for `OP_GET_LOCAL` or `OP_SET_LOCAL`
(and none for any byte value outside the enum): for such a byte the
switch matches nothing, the loop body ends, and execution continues at
the next byte — the final `else` branch. -/
def step (σ0 : VMSt) : Option StepRes :=
  (readByte σ0).bind fun s =>
    let instr := s.1
    let σ := s.2
    if instr = OP_CONSTANT then
      (readConstant σ).bind fun sc => (push sc.2 sc.1).map StepRes.next
    else if instr = OP_NIL then (push σ Value.vNil).map StepRes.next
    else if instr = OP_TRUE then (push σ (Value.vBool true)).map StepRes.next
    else if instr = OP_FALSE then (push σ (Value.vBool false)).map StepRes.next
    else if instr = OP_POP then (pop σ).map fun sp => StepRes.next sp.2
    else if instr = OP_GET_GLOBAL then
      (readString σ).bind fun sn =>
        (tableGet sn.2.heap sn.2.globals sn.1).bind fun r =>
          match r with
          | none =>
            some (StepRes.halt InterpretResult.INTERPRET_RUNTIME_ERROR
              (runtimeError sn.2 (undefinedVariableMsg sn.2.heap sn.1)))
          | some v => (push sn.2 v).map StepRes.next
    else if instr = OP_DEFINE_GLOBAL then
      (readString σ).bind fun sn =>
        (peek sn.2 0).bind fun v =>
          (tableSet sn.2.heap sn.2.globals sn.1 v).bind fun s2 =>
            (pop { sn.2 with globals := s2.2 }).map fun sp => StepRes.next sp.2
    else if instr = OP_SET_GLOBAL then
      (readString σ).bind fun sn =>
        (peek sn.2 0).bind fun v =>
          (tableSet sn.2.heap sn.2.globals sn.1 v).bind fun s2 =>
            if s2.1 then
              (tableDelete sn.2.heap s2.2 sn.1).map fun s3 =>
                StepRes.halt InterpretResult.INTERPRET_RUNTIME_ERROR
                  (runtimeError { sn.2 with globals := s3.2 }
                    (undefinedVariableMsg sn.2.heap sn.1))
            else some (StepRes.next { sn.2 with globals := s2.2 })
    else if instr = OP_EQUAL then
      (pop σ).bind fun sb =>
        (pop sb.2).bind fun sa =>
          (push sa.2 (Value.vBool (valuesEqual sa.1 sb.1))).map StepRes.next
    else if instr = OP_GREATER then
      binaryNum σ fun a b => Value.vBool (decide (a > b))
    else if instr = OP_LESS then
      binaryNum σ fun a b => Value.vBool (decide (a < b))
    else if instr = OP_ADD then
      (peek σ 0).bind fun v0 =>
        (peek σ 1).bind fun v1 =>
          match v0, v1 with
          | Value.vObj _, Value.vObj _ => (concatenate σ).map StepRes.next
          | Value.vNum _, Value.vNum _ =>
            (pop σ).bind fun sb =>
              (pop sb.2).bind fun sa =>
                match sa.1, sb.1 with
                | Value.vNum a, Value.vNum b =>
                  (push sa.2 (Value.vNum (a + b))).map StepRes.next
                | _, _ => none
          | _, _ =>
            some (StepRes.halt InterpretResult.INTERPRET_RUNTIME_ERROR
              (runtimeError σ "Operands must be two numbers or two strings."))
    else if instr = OP_SUBTRACT then binaryNum σ fun a b => Value.vNum (a - b)
    else if instr = OP_MULTIPLY then binaryNum σ fun a b => Value.vNum (a * b)
    else if instr = OP_DIVIDE then binaryNum σ fun a b => Value.vNum (a / b)
    else if instr = OP_NOT then
      (pop σ).bind fun sp => (push sp.2 (Value.vBool (isFalsey sp.1))).map StepRes.next
    else if instr = OP_NEGATE then
      (peek σ 0).bind fun v0 =>
        match v0 with
        | Value.vNum _ =>
          (pop σ).bind fun sp =>
            match sp.1 with
            | Value.vNum x => (push sp.2 (Value.vNum (-x))).map StepRes.next
            | _ => none
        | _ =>
          some (StepRes.halt InterpretResult.INTERPRET_RUNTIME_ERROR
            (runtimeError σ "Operand must be a number."))
    else if instr = OP_PRINT then
      (pop σ).map fun sp => StepRes.next { sp.2 with output := sp.2.output ++ [sp.1] }
    else if instr = OP_RETURN then
      some (StepRes.halt InterpretResult.INTERPRET_OK σ)
    else
      -- no case in the switch: fall through and continue the loop
      some (StepRes.next σ)

/-- vm.c `run`: iterate `step` (fuelled; `none` models an execution
with no defined result within the given fuel). -/
def run : Nat → VMSt → Option (InterpretResult × VMSt)
  | 0, _ => none
  | fuel + 1, σ =>
    (step σ).bind fun r =>
      match r with
      | StepRes.next σ' => run fuel σ'
      | StepRes.halt res σ' => some (res, σ')

/-! ## The compiler (compiler.c)

The scanner (scanner.c / scanner.h) is absent from src/.  Modelled
from the spec: the compiler model consumes the token stream §4.1
describes — each token carries its kind, its lexeme (the start/length
slice of the source) and its line — and `scanToken` yields `TOKEN_EOF`
forever once the stream is exhausted.  Concrete claim inputs supply
the token list their source text scans to. -/

/-- Modelled from the spec: scanner.h `TokenType` (§4.1's token
kinds). -/
inductive TokenType where
  | TOKEN_LEFT_PAREN : TokenType
  | TOKEN_RIGHT_PAREN : TokenType
  | TOKEN_LEFT_BRACE : TokenType
  | TOKEN_RIGHT_BRACE : TokenType
  | TOKEN_COMMA : TokenType
  | TOKEN_DOT : TokenType
  | TOKEN_MINUS : TokenType
  | TOKEN_PLUS : TokenType
  | TOKEN_SEMICOLON : TokenType
  | TOKEN_SLASH : TokenType
  | TOKEN_STAR : TokenType
  | TOKEN_BANG : TokenType
  | TOKEN_BANG_EQUAL : TokenType
  | TOKEN_EQUAL : TokenType
  | TOKEN_EQUAL_EQUAL : TokenType
  | TOKEN_GREATER : TokenType
  | TOKEN_GREATER_EQUAL : TokenType
  | TOKEN_LESS : TokenType
  | TOKEN_LESS_EQUAL : TokenType
  | TOKEN_IDENTIFIER : TokenType
  | TOKEN_STRING : TokenType
  | TOKEN_NUMBER : TokenType
  | TOKEN_AND : TokenType
  | TOKEN_CLASS : TokenType
  | TOKEN_ELSE : TokenType
  | TOKEN_FALSE : TokenType
  | TOKEN_FOR : TokenType
  | TOKEN_FUN : TokenType
  | TOKEN_IF : TokenType
  | TOKEN_NIL : TokenType
  | TOKEN_OR : TokenType
  | TOKEN_PRINT : TokenType
  | TOKEN_RETURN : TokenType
  | TOKEN_SUPER : TokenType
  | TOKEN_THIS : TokenType
  | TOKEN_TRUE : TokenType
  | TOKEN_VAR : TokenType
  | TOKEN_WHILE : TokenType
  | TOKEN_ERROR : TokenType
  | TOKEN_EOF : TokenType
  deriving DecidableEq, Repr

/-- Modelled from the spec: scanner.h `Token` (kind, lexeme slice,
line). -/
structure Token where
  type : TokenType
  lexeme : String
  line : Nat
  deriving DecidableEq, Repr

/-- Shorthand for writing concrete token streams. -/
def tok (ty : TokenType) (lexeme : String) (line : Nat) : Token := ⟨ty, lexeme, line⟩

/-- The token `scanToken` returns forever at the end of the source. -/
def eofToken : Token := ⟨TokenType.TOKEN_EOF, "", 0⟩

/-- compiler.c `Precedence`, as the numeric values of the C enum. -/
def PREC_NONE : Nat := 0

def PREC_ASSIGNMENT : Nat := 1

def PREC_OR : Nat := 2

def PREC_AND : Nat := 3

def PREC_EQUALITY : Nat := 4

def PREC_COMPARISON : Nat := 5

def PREC_TERM : Nat := 6

def PREC_FACTOR : Nat := 7

def PREC_UNARY : Nat := 8

def PREC_CALL : Nat := 9

def PREC_PRIMARY : Nat := 10

/-- The function pointers of the Pratt rule table, as names (NULL is
`pfNone`). -/
inductive PrefixFn where
  | pfNone : PrefixFn
  | pfGrouping : PrefixFn
  | pfUnary : PrefixFn
  | pfVariable : PrefixFn
  | pfString : PrefixFn
  | pfNumber : PrefixFn
  | pfLiteral : PrefixFn
  deriving DecidableEq, Repr

/-- The infix function pointers of the rule table (NULL is `inNone`;
the only non-NULL infix function in this core is `binary`). -/
inductive InfixFn where
  | inNone : InfixFn
  | inBinary : InfixFn
  deriving DecidableEq, Repr

/-- compiler.c `rules` / `getRule`: the `(prefix, infix, precedence)`
row for each token kind. -/
def getRule (t : TokenType) : PrefixFn × InfixFn × Nat :=
  match t with
  | TokenType.TOKEN_LEFT_PAREN => (PrefixFn.pfGrouping, InfixFn.inNone, PREC_NONE)
  | TokenType.TOKEN_MINUS => (PrefixFn.pfUnary, InfixFn.inBinary, PREC_TERM)
  | TokenType.TOKEN_PLUS => (PrefixFn.pfNone, InfixFn.inBinary, PREC_TERM)
  | TokenType.TOKEN_SLASH => (PrefixFn.pfNone, InfixFn.inBinary, PREC_FACTOR)
  | TokenType.TOKEN_STAR => (PrefixFn.pfNone, InfixFn.inBinary, PREC_FACTOR)
  | TokenType.TOKEN_BANG => (PrefixFn.pfUnary, InfixFn.inNone, PREC_NONE)
  | TokenType.TOKEN_BANG_EQUAL => (PrefixFn.pfNone, InfixFn.inBinary, PREC_EQUALITY)
  | TokenType.TOKEN_EQUAL_EQUAL => (PrefixFn.pfNone, InfixFn.inBinary, PREC_EQUALITY)
  | TokenType.TOKEN_GREATER => (PrefixFn.pfNone, InfixFn.inBinary, PREC_COMPARISON)
  | TokenType.TOKEN_GREATER_EQUAL => (PrefixFn.pfNone, InfixFn.inBinary, PREC_COMPARISON)
  | TokenType.TOKEN_LESS => (PrefixFn.pfNone, InfixFn.inBinary, PREC_COMPARISON)
  | TokenType.TOKEN_LESS_EQUAL => (PrefixFn.pfNone, InfixFn.inBinary, PREC_COMPARISON)
  | TokenType.TOKEN_IDENTIFIER => (PrefixFn.pfVariable, InfixFn.inNone, PREC_NONE)
  | TokenType.TOKEN_STRING => (PrefixFn.pfString, InfixFn.inNone, PREC_NONE)
  | TokenType.TOKEN_NUMBER => (PrefixFn.pfNumber, InfixFn.inNone, PREC_NONE)
  | TokenType.TOKEN_FALSE => (PrefixFn.pfLiteral, InfixFn.inNone, PREC_NONE)
  | TokenType.TOKEN_NIL => (PrefixFn.pfLiteral, InfixFn.inNone, PREC_NONE)
  | TokenType.TOKEN_TRUE => (PrefixFn.pfLiteral, InfixFn.inNone, PREC_NONE)
  | _ => (PrefixFn.pfNone, InfixFn.inNone, PREC_NONE)

/-- A compile-time constant (value.h `Value` as the compiler creates
them): a number from `strtod`, or `OBJ_VAL(copyString(...))` recorded
as its text.  The interning of the string constants is replayed, in
constant-pool order, when the chunk is handed to the VM
(`internConstants`); compiler decisions never read the intern table,
so the observable behaviour is that of the source, where
`copyString` runs during compilation. -/
inductive CVal where
  | cNum : ℚ → CVal
  | cStr : String → CVal
  deriving DecidableEq, Repr

/-- compiler.c `Local`: the name token and scope depth (−1 marks
"declared but uninitialized"). -/
structure LocalV where
  name : Token
  depth : Int
  deriving DecidableEq, Repr

/-- The compiler state: parser fields (current, previous, hadError,
panicMode), the scanner position (`toks`, the tokens not yet
produced), the `Compiler` locals array (head = most recently declared,
so C index `localCount - 1 - position`), the scope depth, the chunk's
constant pool, the log of `writeChunk` calls the compiler has made
(byte and line of each, in order), and the compile error messages
printed to stderr. -/
structure CompSt where
  toks : List Token
  current : Token
  previous : Token
  hadError : Bool
  panicMode : Bool
  locals : List LocalV
  scopeDepth : Int
  constants : List CVal
  writes : List (Int × Int)
  errors : List String
  deriving Repr

/-- compiler.c `errorAt`: suppressed in panic mode; otherwise print
`[line L] Error` with the location part, set `panicMode` and
`hadError`. -/
def errorAt (st : CompSt) (token : Token) (message : String) : CompSt :=
  if st.panicMode then st
  else
    let loc :=
      match token.type with
      | TokenType.TOKEN_EOF => " at end"
      | TokenType.TOKEN_ERROR => ""
      | _ => " at " ++ squote ++ token.lexeme ++ squote
    { st with
      panicMode := true
      hadError := true
      errors := st.errors ++
        ["[line " ++ toString token.line ++ "] Error" ++ loc ++ ": " ++ message] }

/-- compiler.c `error`: report at the previous token. -/
def errorC (st : CompSt) (message : String) : CompSt := errorAt st st.previous message

/-- compiler.c `errorAtCurrent`. -/
def errorAtCurrent (st : CompSt) (message : String) : CompSt :=
  errorAt st st.current message

/-- The scan-and-skip-error-tokens loop of compiler.c `advance`. -/
def advanceAux : List Token → CompSt → CompSt
  | [], st => { st with current := eofToken, toks := [] }
  | t :: rest, st =>
    if t.type = TokenType.TOKEN_ERROR then
      advanceAux rest (errorAtCurrent { st with current := t, toks := rest } t.lexeme)
    else { st with current := t, toks := rest }

/-- compiler.c `advance`: stash `current` in `previous`, then pull
tokens until one is not `TOKEN_ERROR`. -/
def advance (st : CompSt) : CompSt :=
  advanceAux st.toks { st with previous := st.current }

/-- compiler.c `consume`. -/
def consume (st : CompSt) (ty : TokenType) (message : String) : CompSt :=
  if st.current.type = ty then advance st else errorAtCurrent st message

/-- compiler.c `check`. -/
def check (st : CompSt) (ty : TokenType) : Bool := decide (st.current.type = ty)

/-- compiler.c `match`. -/
def matchT (st : CompSt) (ty : TokenType) : Bool × CompSt :=
  if check st ty then (true, advance st) else (false, st)

/-- compiler.c `emitByte`: one `writeChunk` call, at the previous
token's line. -/
def emitByte (st : CompSt) (b : Int) : CompSt :=
  { st with writes := st.writes ++ [(b, (st.previous.line : Int))] }

/-- compiler.c `emitBytes`. -/
def emitBytes (st : CompSt) (b1 b2 : Int) : CompSt := emitByte (emitByte st b1) b2

/-- compiler.c `emitReturn`. -/
def emitReturn (st : CompSt) : CompSt := emitByte st OP_RETURN

/-- chunk.c `addConstant`: append the value, return its index. -/
def addConstant (st : CompSt) (v : CVal) : Int × CompSt :=
  ((st.constants.length : Int), { st with constants := st.constants ++ [v] })

/-- compiler.c `makeConstant`: more than 255 constants is a compile
error (the index no longer fits the one-byte operand). -/
def makeConstant (st : CompSt) (v : CVal) : Int × CompSt :=
  let r := addConstant st v
  if r.1 > 255 then (0, errorC r.2 "Too many constants in one chunk.")
  else r

/-- compiler.c `emitConstant`. -/
def emitConstant (st : CompSt) (v : CVal) : CompSt :=
  let r := makeConstant st v
  emitBytes r.2 OP_CONSTANT r.1

/-- compiler.c `identifierConstant`: the identifier's lexeme as an
interned-string constant. -/
def identifierConstant (st : CompSt) (name : Token) : Int × CompSt :=
  makeConstant st (CVal.cStr name.lexeme)

/-- The value of a digit character. -/
def natOfDigits (l : List Char) : Nat :=
  l.foldl (fun a c => a * 10 + (c.toNat - 48)) 0

/-- Models `strtod` on the numeric lexemes §4.1's scanner produces
(digits with an optional fraction); exact for the decimal literals of
the programs evaluated in this file. -/
def parseNum (s : String) : ℚ :=
  match s.split (fun c => c == Char.ofNat 46) with
  | [w] => (natOfDigits w.data : ℚ)
  | [w, f] => (natOfDigits w.data : ℚ) + (natOfDigits f.data : ℚ) / ((10 : ℚ) ^ f.length)
  | _ => 0

/-- compiler.c `number`. -/
def number (st : CompSt) : CompSt :=
  emitConstant st (CVal.cNum (parseNum st.previous.lexeme))

/-- The `+ 1` / `- 2` quote-trimming of compiler.c `string`. -/
def stripQuotes (s : String) : String := String.mk (s.data.drop 1).dropLast

/-- compiler.c `string`. -/
def stringFn (st : CompSt) : CompSt :=
  emitConstant st (CVal.cStr (stripQuotes st.previous.lexeme))

/-- compiler.c `literal`. -/
def literal (st : CompSt) : CompSt :=
  match st.previous.type with
  | TokenType.TOKEN_FALSE => emitByte st OP_FALSE
  | TokenType.TOKEN_NIL => emitByte st OP_NIL
  | TokenType.TOKEN_TRUE => emitByte st OP_TRUE
  | _ => st

/-- compiler.c `identifiersEqual`: length plus `memcmp`. -/
def identifiersEqual (a b : Token) : Bool := decide (a.lexeme = b.lexeme)

/-- The back-to-front search of compiler.c `resolveLocal`, returning
the match's distance from the top of the locals stack. -/
def resolveLocalAux : List LocalV → Token → Option (Nat × LocalV)
  | [], _ => none
  | l :: rest, name =>
    if identifiersEqual name l.name then some (0, l)
    else (resolveLocalAux rest name).map fun r => (r.1 + 1, r.2)

/-- compiler.c `resolveLocal`: scan the locals back to front; report
`"Can't read local variable in its own initializer."` when the match
still has the −1 sentinel depth; return the C array index, or −1 when
no local matches. -/
def resolveLocal (st : CompSt) (name : Token) : Int × CompSt :=
  match resolveLocalAux st.locals name with
  | none => (-1, st)
  | some (j, l) =>
    let st' := if l.depth = -1 then
        errorC st ("Can" ++ squote ++ "t read local variable in its own initializer.")
      else st
    (((st.locals.length - 1 - j : Nat) : Int), st')

/-- compiler.c `addLocal`: at most 256 locals; new locals get the −1
sentinel depth. -/
def addLocal (st : CompSt) (name : Token) : CompSt :=
  if st.locals.length = 256 then
    errorC st "Too many local variables in function."
  else { st with locals := ⟨name, -1⟩ :: st.locals }

/-- The duplicate-declaration scan of compiler.c `declareVariable`:
walk the locals from the top, stop at an initialised local of an
enclosing scope, report a redeclaration in the current scope. -/
def declareCheck : List LocalV → Token → Int → CompSt → CompSt
  | [], _, _, st => st
  | l :: rest, name, sd, st =>
    if ¬ l.depth = -1 ∧ l.depth < sd then st
    else
      declareCheck rest name sd
        (if identifiersEqual name l.name then
          errorC st "Already a variable with this name in this scope."
        else st)

/-- compiler.c `declareVariable`: globals are not tracked; locals are
checked against the current scope and appended uninitialised. -/
def declareVariable (st : CompSt) : CompSt :=
  if st.scopeDepth = 0 then st
  else addLocal (declareCheck st.locals st.previous st.scopeDepth st) st.previous

/-- compiler.c `parseVariable`: consume the identifier, declare it; in
a local scope the constant index is unused (0), at top level the name
goes into the constant pool. -/
def parseVariable (st : CompSt) (message : String) : Int × CompSt :=
  let st := consume st TokenType.TOKEN_IDENTIFIER message
  let st := declareVariable st
  if st.scopeDepth > 0 then (0, st)
  else identifierConstant st st.previous

/-- compiler.c `markInitialized`: give the newest local its real
depth.  (With no locals the C code would write `locals[-1]`; the
compile paths that call it always have one.) -/
def markInitialized (st : CompSt) : CompSt :=
  match st.locals with
  | [] => st
  | l :: rest => { st with locals := ⟨l.name, st.scopeDepth⟩ :: rest }

/-- compiler.c `defineVariable`. -/
def defineVariable (st : CompSt) (global : Int) : CompSt :=
  if st.scopeDepth > 0 then markInitialized st
  else emitBytes st OP_DEFINE_GLOBAL global

/-- compiler.c `beginScope`. -/
def beginScope (st : CompSt) : CompSt := { st with scopeDepth := st.scopeDepth + 1 }

/-- The pop loop of compiler.c `endScope`. -/
def endScopeAux : List LocalV → CompSt → CompSt
  | [], st => st
  | l :: rest, st =>
    if l.depth > st.scopeDepth then
      endScopeAux rest (emitByte { st with locals := rest } OP_POP)
    else st

/-- compiler.c `endScope`: leave the scope, emit one `OP_POP` per
local that belonged to it. -/
def endScope (st : CompSt) : CompSt :=
  endScopeAux st.locals { st with scopeDepth := st.scopeDepth - 1 }

/-- The loop of compiler.c `synchronize`. -/
def syncLoop : Nat → CompSt → Option CompSt
  | 0, _ => none
  | fuel + 1, st =>
    if st.current.type = TokenType.TOKEN_EOF then some st
    else if st.previous.type = TokenType.TOKEN_SEMICOLON then some st
    else
      match st.current.type with
      | TokenType.TOKEN_CLASS => some st
      | TokenType.TOKEN_FUN => some st
      | TokenType.TOKEN_VAR => some st
      | TokenType.TOKEN_FOR => some st
      | TokenType.TOKEN_IF => some st
      | TokenType.TOKEN_WHILE => some st
      | TokenType.TOKEN_PRINT => some st
      | TokenType.TOKEN_RETURN => some st
      | _ => syncLoop fuel (advance st)

/-- compiler.c `synchronize`: clear panic mode, discard tokens to a
statement boundary. -/
def synchronize (fuel : Nat) (st : CompSt) : Option CompSt :=
  syncLoop fuel { st with panicMode := false }

mutual

/-- compiler.c `parsePrecedence`. -/
def parsePrecedence : Nat → Nat → CompSt → Option CompSt
  | 0, _, _ => none
  | fuel + 1, prec, st =>
    let st := advance st
    match (getRule st.previous.type).1 with
    | PrefixFn.pfNone => some (errorC st "Expect expression.")
    | pf =>
      let canAssign := decide (prec ≤ PREC_ASSIGNMENT)
      (runPrefix fuel pf canAssign st).bind fun st =>
        (infixLoop fuel prec canAssign st).bind fun st =>
          if canAssign then
            let r := matchT st TokenType.TOKEN_EQUAL
            if r.1 then some (errorC r.2 "Invalid assignment target.")
            else some r.2
          else some st

/-- Dispatch on the prefix rule's function pointer. -/
def runPrefix : Nat → PrefixFn → Bool → CompSt → Option CompSt
  | 0, _, _, _ => none
  | fuel + 1, pf, canAssign, st =>
    match pf with
    | PrefixFn.pfNone => some st
    | PrefixFn.pfGrouping => grouping fuel canAssign st
    | PrefixFn.pfUnary => unary fuel canAssign st
    | PrefixFn.pfVariable => variableFn fuel canAssign st
    | PrefixFn.pfString => some (stringFn st)
    | PrefixFn.pfNumber => some (number st)
    | PrefixFn.pfLiteral => some (literal st)

/-- The `while (precedence <= getRule(parser.current.type)->precedence)`
loop of `parsePrecedence`. -/
def infixLoop : Nat → Nat → Bool → CompSt → Option CompSt
  | 0, _, _, _ => none
  | fuel + 1, prec, canAssign, st =>
    if prec ≤ (getRule st.current.type).2.2 then
      let st := advance st
      match (getRule st.previous.type).2.1 with
      | InfixFn.inNone => none
      | InfixFn.inBinary =>
        (binary fuel canAssign st).bind fun st => infixLoop fuel prec canAssign st
    else some st

/-- compiler.c `binary`: parse the right operand one level tighter,
emit the operator's opcode(s). -/
def binary : Nat → Bool → CompSt → Option CompSt
  | 0, _, _ => none
  | fuel + 1, _, st =>
    let opType := st.previous.type
    (parsePrecedence fuel ((getRule opType).2.2 + 1) st).map fun st =>
      match opType with
      | TokenType.TOKEN_BANG_EQUAL => emitBytes st OP_EQUAL OP_NOT
      | TokenType.TOKEN_EQUAL_EQUAL => emitByte st OP_EQUAL
      | TokenType.TOKEN_GREATER => emitByte st OP_GREATER
      | TokenType.TOKEN_GREATER_EQUAL => emitBytes st OP_LESS OP_NOT
      | TokenType.TOKEN_LESS => emitByte st OP_LESS
      | TokenType.TOKEN_LESS_EQUAL => emitBytes st OP_GREATER OP_NOT
      | TokenType.TOKEN_PLUS => emitByte st OP_ADD
      | TokenType.TOKEN_MINUS => emitByte st OP_SUBTRACT
      | TokenType.TOKEN_STAR => emitByte st OP_MULTIPLY
      | TokenType.TOKEN_SLASH => emitByte st OP_DIVIDE
      | _ => st

/-- compiler.c `grouping`. -/
def grouping : Nat → Bool → CompSt → Option CompSt
  | 0, _, _ => none
  | fuel + 1, _, st =>
    (expression fuel st).map fun st =>
      consume st TokenType.TOKEN_RIGHT_PAREN
        ("Expect " ++ squote ++ ")" ++ squote ++ " after expression.")

/-- compiler.c `unary`. -/
def unary : Nat → Bool → CompSt → Option CompSt
  | 0, _, _ => none
  | fuel + 1, _, st =>
    let opType := st.previous.type
    (parsePrecedence fuel PREC_UNARY st).map fun st =>
      match opType with
      | TokenType.TOKEN_BANG => emitByte st OP_NOT
      | TokenType.TOKEN_MINUS => emitByte st OP_NEGATE
      | _ => st

/-- compiler.c `namedVariable`: local slot or global name constant;
with `canAssign` and an `=`, compile the assigned expression and the
set-op, otherwise the get-op. -/
def namedVariable : Nat → Token → Bool → CompSt → Option CompSt
  | 0, _, _, _ => none
  | fuel + 1, name, canAssign, st =>
    let r0 := resolveLocal st name
    let s1 :=
      if ¬ r0.1 = -1 then (OP_GET_LOCAL, OP_SET_LOCAL, r0.1, r0.2)
      else
        let r1 := identifierConstant r0.2 name
        (OP_GET_GLOBAL, OP_SET_GLOBAL, r1.1, r1.2)
    let rm := if canAssign then matchT s1.2.2.2 TokenType.TOKEN_EQUAL
      else (false, s1.2.2.2)
    if rm.1 then
      (expression fuel rm.2).map fun st => emitBytes st s1.2.1 s1.2.2.1
    else some (emitBytes rm.2 s1.1 s1.2.2.1)

/-- compiler.c `variable`. -/
def variableFn : Nat → Bool → CompSt → Option CompSt
  | 0, _, _ => none
  | fuel + 1, canAssign, st => namedVariable fuel st.previous canAssign st

/-- compiler.c `expression`. -/
def expression : Nat → CompSt → Option CompSt
  | 0, _ => none
  | fuel + 1, st => parsePrecedence fuel PREC_ASSIGNMENT st

/-- compiler.c `declaration`: `var` declaration or statement, then
`synchronize` if the parser is panicking. -/
def declaration : Nat → CompSt → Option CompSt
  | 0, _ => none
  | fuel + 1, st =>
    let r := matchT st TokenType.TOKEN_VAR
    ((if r.1 then varDeclaration fuel r.2 else statement fuel r.2).bind fun st =>
      if st.panicMode then synchronize fuel st else some st)

/-- compiler.c `statement`: print statement, block, or expression
statement. -/
def statement : Nat → CompSt → Option CompSt
  | 0, _ => none
  | fuel + 1, st =>
    let r := matchT st TokenType.TOKEN_PRINT
    if r.1 then printStatement fuel r.2
    else
      let r2 := matchT r.2 TokenType.TOKEN_LEFT_BRACE
      if r2.1 then (block fuel (beginScope r2.2)).map endScope
      else expressionStatement fuel r2.2

/-- compiler.c `block`. -/
def block : Nat → CompSt → Option CompSt
  | 0, _ => none
  | fuel + 1, st =>
    if ¬ check st TokenType.TOKEN_RIGHT_BRACE ∧ ¬ check st TokenType.TOKEN_EOF then
      (declaration fuel st).bind fun st => block fuel st
    else
      some (consume st TokenType.TOKEN_RIGHT_BRACE
        ("Expect " ++ squote ++ "\x7d" ++ squote ++ " after block."))

/-- compiler.c `varDeclaration`. -/
def varDeclaration : Nat → CompSt → Option CompSt
  | 0, _ => none
  | fuel + 1, st =>
    let rg := parseVariable st "Expect variable name."
    let rm := matchT rg.2 TokenType.TOKEN_EQUAL
    ((if rm.1 then expression fuel rm.2 else some (emitByte rm.2 OP_NIL)).map fun st =>
      defineVariable
        (consume st TokenType.TOKEN_SEMICOLON
          ("Expect " ++ squote ++ ";" ++ squote ++ " after variable declaration."))
        rg.1)

/-- compiler.c `printStatement`. -/
def printStatement : Nat → CompSt → Option CompSt
  | 0, _ => none
  | fuel + 1, st =>
    (expression fuel st).map fun st =>
      emitByte
        (consume st TokenType.TOKEN_SEMICOLON
          ("Expect " ++ squote ++ ";" ++ squote ++ " after value."))
        OP_PRINT

/-- compiler.c `expressionStatement`. -/
def expressionStatement : Nat → CompSt → Option CompSt
  | 0, _ => none
  | fuel + 1, st =>
    (expression fuel st).map fun st =>
      emitByte
        (consume st TokenType.TOKEN_SEMICOLON
          ("Expect " ++ squote ++ ";" ++ squote ++ " after expression."))
        OP_POP

end

/-- The `while (!match(TOKEN_EOF)) declaration();` loop of
compiler.c `compile`. -/
def compileLoop : Nat → CompSt → Option CompSt
  | 0, _ => none
  | fuel + 1, st =>
    let r := matchT st TokenType.TOKEN_EOF
    if r.1 then some r.2
    else (declaration fuel r.2).bind fun st => compileLoop fuel st

/-- compiler.c `compile`: init the scanner on the source's tokens,
init the compiler, prime the parser, parse declarations to EOF, emit
the final `OP_RETURN` (`endCompiler`).  The caller reads `hadError`
for the boolean result. -/
def compile (fuel : Nat) (toks : List Token) : Option CompSt :=
  let st0 : CompSt :=
    ⟨toks, eofToken, eofToken, false, false, [], 0, [], [], []⟩
  (compileLoop fuel (advance st0)).map emitReturn

/-- The bytes of a string constant's text (ASCII in all evaluated
programs). -/
def strBytes (s : String) : List Nat := s.data.map Char.toNat

/-- Replay, in constant-pool order, the `copyString` interning that
compiler.c performs while creating string constants (`string` and
`identifierConstant`), producing the runtime constant pool. -/
def internConstants (σ : StrState) : List CVal → Option (StrState × List Value)
  | [] => some (σ, [])
  | CVal.cNum q :: rest =>
    (internConstants σ rest).map fun r => (r.1, Value.vNum q :: r.2)
  | CVal.cStr s :: rest =>
    (copyString σ (strBytes s)).bind fun s1 =>
      (internConstants s1.1 rest).map fun r => (r.1, Value.vObj s1.2 :: r.2)

/-- vm.c `interpret`, end to end: compile (discarding the chunk and
reporting `INTERPRET_COMPILE_ERROR` on a compile error), otherwise
replay the compiler's `writeChunk` calls on a fresh chunk whose
arrays' leftover memory contents are `gc`/`gl`, point the VM at it, and
`run`. -/
def interpretModel (gl gc : Int → Int) (fuel : Nat) (toks : List Token) :
    Option InterpretResult :=
  (compile fuel toks).bind fun st =>
    if st.hadError then some InterpretResult.INTERPRET_COMPILE_ERROR
    else
      (internConstants initStr st.constants).bind fun s =>
        let ch := chunkOf gc gl st.writes
        (run fuel
          ⟨⟨ch.count, ch.code, ch.lines, s.2⟩, 0, [], s.1.heap, s.1.strings,
            initTable, [], []⟩).map Prod.fst

/-- The token stream the scanner produces for
`var a = 10; { var a = a + 1; print a; } print a;` (one source line). -/
def c2toks : List Token :=
  [tok TokenType.TOKEN_VAR "var" 1, tok TokenType.TOKEN_IDENTIFIER "a" 1,
   tok TokenType.TOKEN_EQUAL "=" 1, tok TokenType.TOKEN_NUMBER "10" 1,
   tok TokenType.TOKEN_SEMICOLON ";" 1, tok TokenType.TOKEN_LEFT_BRACE "\x7b" 1,
   tok TokenType.TOKEN_VAR "var" 1, tok TokenType.TOKEN_IDENTIFIER "a" 1,
   tok TokenType.TOKEN_EQUAL "=" 1, tok TokenType.TOKEN_IDENTIFIER "a" 1,
   tok TokenType.TOKEN_PLUS "+" 1, tok TokenType.TOKEN_NUMBER "1" 1,
   tok TokenType.TOKEN_SEMICOLON ";" 1, tok TokenType.TOKEN_PRINT "print" 1,
   tok TokenType.TOKEN_IDENTIFIER "a" 1, tok TokenType.TOKEN_SEMICOLON ";" 1,
   tok TokenType.TOKEN_RIGHT_BRACE "\x7d" 1, tok TokenType.TOKEN_PRINT "print" 1,
   tok TokenType.TOKEN_IDENTIFIER "a" 1, tok TokenType.TOKEN_SEMICOLON ";" 1,
   tok TokenType.TOKEN_EOF "" 1]

/-- The token stream the scanner produces for `1 + "a";` (one source
line; the string token's lexeme keeps its quotes). -/
def c9toks : List Token :=
  [tok TokenType.TOKEN_NUMBER "1" 1, tok TokenType.TOKEN_PLUS "+" 1,
   tok TokenType.TOKEN_STRING "\"a\"" 1, tok TokenType.TOKEN_SEMICOLON ";" 1,
   tok TokenType.TOKEN_EOF "" 1]

/-- One possible content of the leftover memory behind the chunk's
`lines` array for the C9 run: the cell at index −1 (the out-of-bounds
slot `writeChunk` reads first) holds 0, every other cell holds 1. -/
def gl9 : Int → Int := fun x => if x = -1 then 0 else 1

/-- One possible content of the leftover memory behind the chunk's
`code` array for the C9 run: every cell holds 20 (`OP_RETURN`). -/
def gc9 : Int → Int := fun _ => 20

/-- The string probe loop stops at step `j`: an empty (non-tombstone)
bucket, or a live bucket whose string has the probed-for length, hash
and bytes. -/
def StopAtStr (H : Heap) (E : List Entry) (cap : Nat) (chars : List Nat)
    (hash home j : Nat) : Prop :=
  isEmptyE (entryAt E (probe cap home j)) ∨
  ∃ kp, keyAt E (probe cap home j) = some kp ∧
    (deref H kp).chars.length = chars.length ∧ (deref H kp).hash = hash ∧
    (deref H kp).chars = chars

/-- Pointer `p` is the interned object for byte content `b`: it is a
live key of `vm.strings` and its object holds exactly the bytes `b`. -/
def Interned (σ : StrState) (b : List Nat) (p : Nat) : Prop :=
  LiveInE σ.strings.entries p ∧ (deref σ.heap p).chars = b

/-- The compile error the source reports on
`var a = 10; { var a = a + 1; print a; } print a;`. -/
def c2msg : String :=
  "[line 1] Error at " ++ squote ++ "a" ++ squote ++ ": Can" ++ squote ++
    "t read local variable in its own initializer."

/-- A VM about to run the bytecode `[OP_GET_LOCAL, 1, OP_RETURN]` with
two numbers on the stack (stack head = top): the state the C1 claim
describes for `OP_GET_LOCAL` with operand slot 1. -/
def vm1 : VMSt :=
  ⟨⟨3, fun i => if i = 0 then OP_GET_LOCAL else if i = 1 then 1 else OP_RETURN,
      fun _ => 1, []⟩,
    0, [Value.vNum 7, Value.vNum 8], [], initTable, initTable, [], []⟩

/-- A VM about to run the bytecode `[OP_SET_LOCAL, 1, OP_RETURN]` with
two numbers on the stack: the state the C1 claim describes for
`OP_SET_LOCAL` with operand slot 1. -/
def vm1s : VMSt :=
  ⟨⟨3, fun i => if i = 0 then OP_SET_LOCAL else if i = 1 then 1 else OP_RETURN,
      fun _ => 1, []⟩,
    0, [Value.vNum 7, Value.vNum 9], [], initTable, initTable, [], []⟩

/-- A VM about to execute `OP_SET_GLOBAL` with name constant 0 (the
one-byte string "x", interned at heap index 0) on an empty globals
table: a concrete state for the C7 scenario. -/
def vm7 : VMSt :=
  ⟨⟨3, fun i => if i = 0 then OP_SET_GLOBAL else if i = 1 then 0 else OP_RETURN,
      fun _ => 1, [Value.vObj 0]⟩,
    0, [Value.vNum 1], [⟨hashString [120], [120]⟩], initTable, initTable, [], []⟩

/-! ## Theorems -/

theorem probe_lt {cap : Nat} (hcap : 0 < cap) (home j : Nat) : probe cap home j < cap :=
  Nat.mod_lt _ hcap

theorem probe_zero {cap : Nat} (home : Nat) (h : home < cap) : probe cap home 0 = home := by
  simp [probe, Nat.mod_eq_of_lt h]

theorem probe_succ (cap home t : Nat) :
    probe cap home (t + 1) = (probe cap home t + 1) % cap := by
  show (home + (t + 1)) % cap = ((home + t) % cap + 1) % cap
  rw [Nat.mod_add_mod, Nat.add_assoc]

theorem probe_inj {cap : Nat} {home j1 j2 : Nat} (h1 : j1 < cap) (h2 : j2 < cap)
    (h : probe cap home j1 = probe cap home j2) : j1 = j2 := by
  have hmod : j1 % cap = j2 % cap := Nat.ModEq.add_left_cancel' home h
  rwa [Nat.mod_eq_of_lt h1, Nat.mod_eq_of_lt h2] at hmod

theorem probe_surj {cap : Nat} (hcap : 0 < cap) (home : Nat) {i : Nat} (hi : i < cap) :
    ∃ j, j < cap ∧ probe cap home j = i := by
  refine ⟨(cap + i - home % cap) % cap, Nat.mod_lt _ hcap, ?_⟩
  have hm : home % cap < cap := Nat.mod_lt _ hcap
  have h1 : probe cap home ((cap + i - home % cap) % cap) =
      (home % cap + (cap + i - home % cap)) % cap := by
    simp [probe, Nat.add_mod_mod, Nat.mod_add_mod]
  have h2 : home % cap + (cap + i - home % cap) = cap + i := by omega
  rw [h1, h2, Nat.add_mod_left, Nat.mod_eq_of_lt hi]

/-- One unfolding step of the probe loop. -/
theorem findEntryAux_succ (E : List Entry) (cap key index : Nat) (tomb : Option Nat)
    (fuel : Nat) :
    findEntryAux E cap key index tomb (fuel + 1) =
      match (List.getD E index emptyEntry).key with
      | none =>
        if (List.getD E index emptyEntry).value = Value.vNil then
          some (tomb.getD index)
        else findEntryAux E cap key ((index + 1) % cap) (some (tomb.getD index)) fuel
      | some k =>
        if k = key then some index
        else findEntryAux E cap key ((index + 1) % cap) tomb fuel := rfl

theorem findEntryAux_step_empty {E : List Entry} {index : Nat}
    (cap key : Nat) (tomb : Option Nat) (fuel : Nat)
    (h : (List.getD E index emptyEntry).key = none)
    (hval : (List.getD E index emptyEntry).value = Value.vNil) :
    findEntryAux E cap key index tomb (fuel + 1) = some (tomb.getD index) := by
  have h' := h
  have hval' := hval
  simp only [List.getD_eq_getElem?_getD] at h' hval'
  simp [findEntryAux_succ, h', hval']

theorem findEntryAux_step_found {E : List Entry} {index key : Nat}
    (cap : Nat) (tomb : Option Nat) (fuel : Nat)
    (h : (List.getD E index emptyEntry).key = some key) :
    findEntryAux E cap key index tomb (fuel + 1) = some index := by
  have h' := h
  simp only [List.getD_eq_getElem?_getD] at h'
  simp [findEntryAux_succ, h']

theorem findEntryAux_step_tomb {E : List Entry} {index : Nat}
    (cap key : Nat) (tomb : Option Nat) (fuel : Nat)
    (h : (List.getD E index emptyEntry).key = none)
    (hval : ¬ (List.getD E index emptyEntry).value = Value.vNil) :
    findEntryAux E cap key index tomb (fuel + 1) =
      findEntryAux E cap key ((index + 1) % cap) (some (tomb.getD index)) fuel := by
  have h' := h
  have hval' := hval
  simp only [List.getD_eq_getElem?_getD] at h' hval'
  simp [findEntryAux_succ, h', hval']

theorem findEntryAux_step_other {E : List Entry} {index key k' : Nat}
    (cap : Nat) (tomb : Option Nat) (fuel : Nat)
    (h : (List.getD E index emptyEntry).key = some k') (hne : ¬ k' = key) :
    findEntryAux E cap key index tomb (fuel + 1) =
      findEntryAux E cap key ((index + 1) % cap) tomb fuel := by
  have h' := h
  simp only [List.getD_eq_getElem?_getD] at h'
  simp [findEntryAux_succ, h', hne]

theorem counts_partition (E : List Entry) :
    liveCount E + tombCount E + emptyCount E = E.length := by
  induction E with
  | nil => rfl
  | cons e E ih =>
    rcases hk : e.key with _ | k
    · rcases hv : e.value with _ | b | q | p <;>
        simp [hk, hv, liveCount, tombCount, emptyCount, liveB, tombB, emptyB,
          List.countP_cons] at ih ⊢ <;>
        omega
    · simp [hk, liveCount, tombCount, emptyCount, liveB, tombB, emptyB,
        List.countP_cons] at ih ⊢
      omega

theorem exists_empty_slot {E : List Entry} (h : liveCount E + tombCount E < E.length) :
    ∃ i, i < E.length ∧ isEmptyE (entryAt E i) := by
  have hpos : 0 < emptyCount E := by have := counts_partition E; omega
  obtain ⟨e, hmem, he⟩ := List.countP_pos_iff.mp hpos
  obtain ⟨i, hi, hei⟩ := List.getElem_of_mem hmem
  refine ⟨i, hi, ?_⟩
  have hEq : entryAt E i = e := by rw [entryAt, List.getD_eq_getElem E emptyEntry hi, hei]
  rw [hEq]
  have hprop : e.key = none ∧ e.value = Value.vNil := of_decide_eq_true he
  exact hprop

/-- Central characterisation of the probe loop: if the first decisive
bucket (empty, or holding the probed-for key) on the probe sequence is
at step `jm`, the loop returns: the bucket holding the key, if that is
what stopped it; otherwise a NULL-key bucket (the first remembered
tombstone, or the empty bucket itself) that is a valid insertion point
for the key. -/
theorem findEntryAux_walk (E : List Entry) (cap key home : Nat)
    (hcap : 0 < cap) (jm : Nat) (hjm : jm < cap)
    (hstop : StopAt E cap key home jm)
    (hpre : ∀ j, j < jm → ¬ StopAt E cap key home j) :
    ∀ fuel t tombOpt, t ≤ jm → jm - t < fuel →
      TombOk E cap home tombOpt →
      ∃ r, findEntryAux E cap key (probe cap home t) tombOpt fuel = some r ∧ r < cap ∧
        ((keyAt E (probe cap home jm) = some key ∧ r = probe cap home jm) ∨
         (¬ keyAt E (probe cap home jm) = some key ∧ keyAt E r = none ∧
           InsertChain E cap home r)) := by
  intro fuel
  induction fuel with
  | zero => intro t tombOpt ht hfuel htomb; omega
  | succ fuel ih =>
    intro t tombOpt ht hfuel htomb
    rcases Nat.eq_or_lt_of_le ht with hteq | htlt
    · subst hteq
      rcases hstop with hempty | hkey
      · obtain ⟨hk, hv⟩ := hempty
        simp only [entryAt] at hk hv
        refine ⟨tombOpt.getD (probe cap home t), ?_, ?_, ?_⟩
        · rw [findEntryAux_step_empty cap key tombOpt fuel hk hv]
        · rcases htopt : tombOpt with _ | q
          · simpa using probe_lt hcap home t
          · obtain ⟨_, hic⟩ := htomb q htopt
            obtain ⟨jr, hjr, hjre, _⟩ := hic
            simpa [← hjre] using probe_lt hcap home jr
        · refine Or.inr ⟨?_, ?_, ?_⟩
          · simp only [keyAt, entryAt, hk]
            simp
          · rcases htopt : tombOpt with _ | q
            · simp only [Option.getD_none, keyAt, entryAt, hk]
            · simpa using (htomb q htopt).1
          · rcases htopt : tombOpt with _ | q
            · exact ⟨t, hjm, by simp, fun j' hj' hem => hpre j' hj' (Or.inl hem)⟩
            · simpa using (htomb q htopt).2
      · refine ⟨probe cap home t, ?_, probe_lt hcap home t, Or.inl ⟨hkey, rfl⟩⟩
        simp only [keyAt, entryAt] at hkey
        rw [findEntryAux_step_found cap tombOpt fuel hkey]
    · have hnstop := hpre t htlt
      rcases hk : (entryAt E (probe cap home t)).key with _ | k'
      · have hv : ¬ (entryAt E (probe cap home t)).value = Value.vNil := by
          intro hv; exact hnstop (Or.inl ⟨hk, hv⟩)
        simp only [entryAt] at hk hv
        have htomb' : TombOk E cap home (some (tombOpt.getD (probe cap home t))) := by
          intro q hq
          injection hq with hq
          rcases htopt : tombOpt with _ | q0
          · subst htopt
            simp only [Option.getD_none] at hq
            subst hq
            refine ⟨by simp only [keyAt, entryAt, hk], t, lt_trans htlt hjm, rfl, ?_⟩
            exact fun j' hj' hem => hpre j' (lt_trans hj' htlt) (Or.inl hem)
          · subst htopt
            simp only [Option.getD_some] at hq
            subst hq
            exact htomb q0 rfl
        obtain ⟨r, hrun, hrlt, hr⟩ :=
          ih (t + 1) (some (tombOpt.getD (probe cap home t)))
            htlt (by omega) htomb'
        refine ⟨r, ?_, hrlt, hr⟩
        rw [probe_succ] at hrun
        rw [findEntryAux_step_tomb cap key tombOpt fuel hk hv]
        exact hrun
      · have hkk : ¬ k' = key := by
          intro hkk
          subst hkk
          exact hnstop (Or.inr (by simp only [keyAt, hk]))
        simp only [entryAt] at hk
        obtain ⟨r, hrun, hrlt, hr⟩ := ih (t + 1) tombOpt htlt (by omega) htomb
        refine ⟨r, ?_, hrlt, hr⟩
        rw [probe_succ] at hrun
        rw [findEntryAux_step_other cap tombOpt fuel hk hkk]
        exact hrun

theorem entryAt_set_self {E : List Entry} {i : Nat} (x : Entry) (h : i < E.length) :
    entryAt (E.set i x) i = x := by
  simp [entryAt, List.getD_eq_getElem?_getD, List.getElem?_set_self, h]

theorem entryAt_set_ne {E : List Entry} {i j : Nat} (x : Entry) (h : i ≠ j) :
    entryAt (E.set i x) j = entryAt E j := by
  simp [entryAt, List.getD_eq_getElem?_getD, List.getElem?_set_ne h]

theorem liveInE_of_keyAt {E : List Entry} {i k : Nat} (hi : i < E.length)
    (h : keyAt E i = some k) : LiveInE E k := by
  refine ⟨E[i], List.getElem_mem hi, ?_⟩
  rwa [keyAt, entryAt, List.getD_eq_getElem E emptyEntry hi] at h

theorem countP_set (p : Entry → Bool) (E : List Entry) (i : Nat) (x : Entry)
    (h : i < E.length) :
    (E.set i x).countP p + (if p (entryAt E i) then 1 else 0)
      = E.countP p + (if p x then 1 else 0) := by
  induction E generalizing i with
  | nil => simp at h
  | cons e E ih =>
    cases i with
    | zero => simp [entryAt, List.countP_cons]; omega
    | succ i =>
      have hi : i < E.length := by simpa using h
      have := ih i hi
      simp only [List.set_cons_succ, List.countP_cons, entryAt, List.getD_cons_succ] at *
      omega

theorem if_one_zero_false {c : Bool} (h : c = false) :
    (if c = true then 1 else 0) = 0 := by rw [h]; rfl

theorem if_one_zero_true {c : Bool} (h : c = true) :
    (if c = true then 1 else 0) = 1 := by rw [h]; rfl

theorem find?_set_of_not {E : List Entry} {i : Nat} {x : Entry} (p : Entry → Bool)
    (hx : ¬ p x = true) (hold : ¬ p (entryAt E i) = true) :
    (E.set i x).find? p = E.find? p := by
  induction E generalizing i with
  | nil => simp
  | cons e E ih =>
    cases i with
    | zero =>
      simp only [entryAt, List.getD_cons_zero] at hold
      simp [List.find?_cons, Bool.eq_false_iff.mpr hx, Bool.eq_false_iff.mpr hold]
    | succ i =>
      simp only [entryAt, List.getD_cons_succ] at hold
      rcases he : p e with _ | _
      · simp [List.find?_cons, he, ih hold]
      · simp [List.find?_cons, he]

theorem find?_set_unique {E : List Entry} {i : Nat} {x : Entry} (p : Entry → Bool)
    (hi : i < E.length) (hx : p x = true)
    (hothers : ∀ j, j < E.length → j ≠ i → ¬ p (entryAt E j) = true) :
    (E.set i x).find? p = some x := by
  induction E generalizing i with
  | nil => simp at hi
  | cons e E ih =>
    cases i with
    | zero => simp [List.find?_cons, hx]
    | succ i =>
      have h0 : ¬ p e = true := by
        have := hothers 0 (by simp) (by simp)
        simpa [entryAt] using this
      have hi' : i < E.length := by simpa using hi
      have hoth' : ∀ j, j < E.length → j ≠ i → ¬ p (entryAt E j) = true := by
        intro j hj hne
        have := hothers (j + 1) (by simpa using Nat.succ_lt_succ hj) (by omega)
        simpa [entryAt, List.getD_cons_succ] using this
      simp [List.find?_cons, Bool.eq_false_iff.mpr h0, ih hi' hoth']

theorem lookupE_eq_none_iff {E : List Entry} {k : Nat} :
    lookupE E k = none ↔ ¬ LiveInE E k := by
  constructor
  · intro h hlive
    obtain ⟨e, hmem, hkey⟩ := hlive
    rcases hf : E.find? (keyMatches k) with _ | e'
    · exact (List.find?_eq_none.mp hf e hmem) (by simp [keyMatches, hkey])
    · simp [lookupE, hf] at h
  · intro h
    rcases hf : E.find? (keyMatches k) with _ | e'
    · simp [lookupE, hf]
    · exfalso
      have hmem := List.mem_of_find?_eq_some hf
      have hb := List.find?_some hf
      have hkey : e'.key = some k := of_decide_eq_true hb
      exact h ⟨e', hmem, hkey⟩

theorem lookupE_eq_some_of_liveWith {E : List Entry} {k : Nat} {v : Value}
    (hnodup : ∀ i j k0, i < E.length → j < E.length →
      keyAt E i = some k0 → keyAt E j = some k0 → i = j)
    (h : LiveWith E k v) : lookupE E k = some v := by
  obtain ⟨e, hmem, hkey, hval⟩ := h
  rcases hf : E.find? (keyMatches k) with _ | e'
  · exact absurd (by simp [keyMatches, hkey] :
      keyMatches k e = true) (List.find?_eq_none.mp hf e hmem)
  · have hmem' := List.mem_of_find?_eq_some hf
    have hb := List.find?_some hf
    have hkey' : e'.key = some k := of_decide_eq_true hb
    obtain ⟨i, hi, hie⟩ := List.getElem_of_mem hmem
    obtain ⟨j, hj, hje⟩ := List.getElem_of_mem hmem'
    have hki : keyAt E i = some k := by
      rw [keyAt, entryAt, List.getD_eq_getElem E emptyEntry hi, hie, hkey]
    have hkj : keyAt E j = some k := by
      rw [keyAt, entryAt, List.getD_eq_getElem E emptyEntry hj, hje, hkey']
    have hij := hnodup i j k hi hj hki hkj
    subst hij
    have : e = e' := by rw [← hie, ← hje]
    subst this
    simp [lookupE, hf, hval]

/-- On a well-formed bucket array, probing for a key that is stored
live at bucket `p` returns exactly bucket `p`. -/
theorem findEntry_found {H : Heap} {E : List Entry} {cap p k : Nat}
    (hcap : 0 < cap) (hwf : EntriesWF H E cap)
    (hp : p < cap) (hkp : keyAt E p = some k) :
    findEntry H E cap k = some p := by
  obtain ⟨hlen, hnodup, hchain⟩ := hwf
  obtain ⟨jp, hjp, hjpe, hjpc⟩ := hchain p k hp hkp
  have hhome : homeOf H cap k < cap := Nat.mod_lt _ hcap
  have hpre : ∀ j, j < jp → ¬ StopAt E cap k (homeOf H cap k) j := by
    intro j hj hstop
    rcases hstop with hem | hkm
    · exact hjpc j hj hem
    · have hpj := hnodup _ p k (probe_lt hcap _ j) hp hkm hkp
      rw [← hjpe] at hpj
      have := probe_inj (lt_trans hj hjp) hjp hpj
      omega
  have hstop : StopAt E cap k (homeOf H cap k) jp := Or.inr (by rw [hjpe]; exact hkp)
  obtain ⟨r, hrun, hrlt, hr⟩ :=
    findEntryAux_walk E cap k (homeOf H cap k) hcap jp hjp hstop hpre cap 0 none
      (by omega) (by omega) (fun q hq => by cases hq)
  rcases hr with ⟨_, hre⟩ | ⟨hnk, _, _⟩
  · rw [findEntry, if_neg (Nat.pos_iff_ne_zero.mp hcap)]
    have hstart : probe cap (homeOf H cap k) 0 = (deref H k).hash % cap := by
      rw [probe_zero _ hhome]; rfl
    rw [← hstart, hrun, hre, hjpe]
  · exact absurd (by rw [hjpe]; exact hkp) hnk

/-- On a well-formed bucket array with an empty bucket, probing for a
key that is nowhere live returns a NULL-key bucket that is a valid
insertion point for the key. -/
theorem findEntry_absent {H : Heap} {E : List Entry} {cap k : Nat}
    (hcap : 0 < cap) (hwf : EntriesWF H E cap)
    (hnotlive : ¬ LiveInE E k)
    (hempty : ∃ i, i < E.length ∧ isEmptyE (entryAt E i)) :
    ∃ r, findEntry H E cap k = some r ∧ r < cap ∧ keyAt E r = none ∧
      InsertChain E cap (homeOf H cap k) r := by
  classical
  obtain ⟨hlen, hnodup, hchain⟩ := hwf
  obtain ⟨i, hi, hie⟩ := hempty
  rw [hlen] at hi
  obtain ⟨j0, hj0, hj0e⟩ := probe_surj hcap (homeOf H cap k) hi
  have hhome : homeOf H cap k < cap := Nat.mod_lt _ hcap
  have hex : ∃ j, StopAt E cap k (homeOf H cap k) j :=
    ⟨j0, Or.inl (by rw [hj0e]; exact hie)⟩
  have hstop := Nat.find_spec hex
  have hpre : ∀ j, j < Nat.find hex → ¬ StopAt E cap k (homeOf H cap k) j :=
    fun j hj => Nat.find_min hex hj
  have hjm : Nat.find hex < cap :=
    lt_of_le_of_lt (Nat.find_min' hex (Or.inl (by rw [hj0e]; exact hie))) hj0
  obtain ⟨r, hrun, hrlt, hr⟩ :=
    findEntryAux_walk E cap k (homeOf H cap k) hcap (Nat.find hex) hjm hstop hpre cap 0 none
      (by omega) (by omega) (fun q hq => by cases hq)
  rcases hr with ⟨hkm, _⟩ | ⟨_, hrn, hric⟩
  · exact absurd (liveInE_of_keyAt (by rw [hlen]; exact probe_lt hcap _ _) hkm) hnotlive
  · refine ⟨r, ?_, hrlt, hrn, hric⟩
    rw [findEntry, if_neg (Nat.pos_iff_ne_zero.mp hcap)]
    have hstart : probe cap (homeOf H cap k) 0 = (deref H k).hash % cap := by
      rw [probe_zero _ hhome]; rfl
    rw [← hstart, hrun]

theorem insertChain_lift {E : List Entry} {cap home r' r : Nat} {x : Entry}
    (hx : ¬ isEmptyE x) (hr : r < E.length)
    (h : InsertChain E cap home r') : InsertChain (E.set r x) cap home r' := by
  obtain ⟨jr, hjr, hjre, hjrc⟩ := h
  refine ⟨jr, hjr, hjre, fun j' hj' hem => ?_⟩
  by_cases hqr : probe cap home j' = r
  · rw [hqr, entryAt_set_self x hr] at hem
    exact hx hem
  · rw [entryAt_set_ne x (fun h => hqr h.symm)] at hem
    exact hjrc j' hj' hem

/-- Writing a fresh key into the NULL-key bucket `findEntry` returns
preserves structural well-formedness and updates the represented map
pointwise (the shared core of `tableSet` on a new key and of
`adjustCapacity`'s re-insertion). -/
theorem insert_new_key {H : Heap} {E : List Entry} {cap k : Nat} {x : Entry}
    (hcap : 0 < cap) (hwf : EntriesWF H E cap) (hxk : x.key = some k)
    (hnotlive : ¬ LiveInE E k)
    (hempty : ∃ i, i < E.length ∧ isEmptyE (entryAt E i)) :
    ∃ r, findEntry H E cap k = some r ∧ r < cap ∧ keyAt E r = none ∧
      EntriesWF H (E.set r x) cap ∧
      liveCount (E.set r x) = liveCount E + 1 ∧
      tombCount (E.set r x) + (if (entryAt E r).value = Value.vNil then 0 else 1)
        = tombCount E ∧
      (∀ k'', lookupE (E.set r x) k'' =
        if k'' = k then some x.value else lookupE E k'') := by
  obtain ⟨hlen, hnodup, hchain⟩ := hwf
  obtain ⟨r, hfind, hrlt, hrk, hric⟩ :=
    findEntry_absent hcap ⟨hlen, hnodup, hchain⟩ hnotlive hempty
  have hrl : r < E.length := by rw [hlen]; exact hrlt
  have hxs : ¬ isEmptyE x := by
    intro hem
    have hx1 := hem.1
    rw [hxk] at hx1
    cases hx1
  have hkeyAt_self : keyAt (E.set r x) r = some k := by
    rw [keyAt, entryAt_set_self x hrl, hxk]
  have hkeyAt_ne : ∀ j, j ≠ r → keyAt (E.set r x) j = keyAt E j := by
    intro j hj
    rw [keyAt, entryAt_set_ne x (fun h => hj h.symm)]
    rfl
  refine ⟨r, hfind, hrlt, hrk, ⟨by simpa using hlen, ?_, ?_⟩, ?_, ?_, ?_⟩
  · -- no duplicate live keys
    intro i j k0 hi hj hki hkj
    by_cases hir : i = r <;> by_cases hjr : j = r
    · rw [hir, hjr]
    · exfalso
      rw [hir, hkeyAt_self] at hki
      rw [hkeyAt_ne j hjr] at hkj
      injection hki with hki
      rw [← hki] at hkj
      exact hnotlive (liveInE_of_keyAt (by rw [hlen]; exact hj) hkj)
    · exfalso
      rw [hjr, hkeyAt_self] at hkj
      rw [hkeyAt_ne i hir] at hki
      injection hkj with hkj
      rw [← hkj] at hki
      exact hnotlive (liveInE_of_keyAt (by rw [hlen]; exact hi) hki)
    · rw [hkeyAt_ne i hir] at hki
      rw [hkeyAt_ne j hjr] at hkj
      exact hnodup i j k0 hi hj hki hkj
  · -- probe chains
    intro p k0 hp hkp
    by_cases hpr : p = r
    · rw [hpr, hkeyAt_self] at hkp
      injection hkp with hkp
      rw [hpr, ← hkp]
      exact insertChain_lift hxs hrl hric
    · rw [hkeyAt_ne p hpr] at hkp
      exact insertChain_lift hxs hrl (hchain p k0 hp hkp)
  · -- live count increases by one
    have hc := countP_set liveB E r x hrl
    have h1 : liveB (entryAt E r) = false := by
      show (entryAt E r).key.isSome = false
      rw [show (entryAt E r).key = none from hrk]
      rfl
    have h2 : liveB x = true := by
      show x.key.isSome = true
      rw [hxk]
      rfl
    rw [if_one_zero_false h1, if_one_zero_true h2] at hc
    show liveCount (E.set r x) = liveCount E + 1
    simp only [liveCount]
    omega
  · -- tombstone count
    have hc := countP_set tombB E r x hrl
    have h2 : tombB x = false := by
      show decide (x.key = none ∧ x.value ≠ Value.vNil) = false
      simp [hxk]
    rw [if_one_zero_false h2] at hc
    by_cases hv : (entryAt E r).value = Value.vNil
    · have h1 : tombB (entryAt E r) = false := by
        show decide ((entryAt E r).key = none ∧ (entryAt E r).value ≠ Value.vNil) = false
        simp [hv]
      rw [if_one_zero_false h1] at hc
      rw [if_pos hv]
      simp only [tombCount]
      omega
    · have h1 : tombB (entryAt E r) = true := by
        show decide ((entryAt E r).key = none ∧ (entryAt E r).value ≠ Value.vNil) = true
        simp [hv]
        exact hrk
      rw [if_one_zero_true h1] at hc
      rw [if_neg hv]
      simp only [tombCount]
      omega
  · -- pointwise lookup update
    intro k''
    by_cases hkk : k'' = k
    · subst hkk
      rw [if_pos rfl]
      have hfind' : (E.set r x).find? (keyMatches k'') = some x := by
        apply find?_set_unique _ hrl (by show decide (x.key = some k'') = true; simp [hxk])
        intro j hj hjr hpj
        have hkj : keyAt E j = some k'' := of_decide_eq_true hpj
        exact hnotlive (liveInE_of_keyAt hj hkj)
      show ((E.set r x).find? (keyMatches k'')).map Entry.value = some x.value
      rw [hfind']
      rfl
    · rw [if_neg hkk]
      have hx' : ¬ keyMatches k'' x = true := by
        show ¬ decide (x.key = some k'') = true
        simp [hxk]
        exact fun h => hkk h.symm
      have hold' : ¬ keyMatches k'' (entryAt E r) = true := by
        show ¬ decide ((entryAt E r).key = some k'') = true
        simp [show (entryAt E r).key = none from hrk]
      show ((E.set r x).find? (keyMatches k'')).map Entry.value
          = (E.find? (keyMatches k'')).map Entry.value
      rw [find?_set_of_not _ hx' hold']

/-- Overwriting the value of a key that is already live preserves
structural well-formedness and updates the represented map pointwise. -/
theorem set_existing_key {H : Heap} {E : List Entry} {cap k p : Nat} (v : Value)
    (hcap : 0 < cap) (hwf : EntriesWF H E cap)
    (hp : p < cap) (hkp : keyAt E p = some k) :
    findEntry H E cap k = some p ∧
      EntriesWF H (E.set p ⟨some k, v⟩) cap ∧
      liveCount (E.set p ⟨some k, v⟩) = liveCount E ∧
      tombCount (E.set p ⟨some k, v⟩) = tombCount E ∧
      (∀ k'', lookupE (E.set p ⟨some k, v⟩) k'' =
        if k'' = k then some v else lookupE E k'') := by
  obtain ⟨hlen, hnodup, hchain⟩ := hwf
  have hpl : p < E.length := by rw [hlen]; exact hp
  have hxs : ¬ isEmptyE (Entry.mk (some k) v) := by
    intro hem
    cases hem.1
  have hkeyAt_self : keyAt (E.set p ⟨some k, v⟩) p = some k := by
    rw [keyAt, entryAt_set_self _ hpl]
  have hkeyAt_ne : ∀ j, j ≠ p → keyAt (E.set p ⟨some k, v⟩) j = keyAt E j := by
    intro j hj
    rw [keyAt, entryAt_set_ne _ (fun h => hj h.symm)]
    rfl
  have holdk : (entryAt E p).key = some k := hkp
  refine ⟨findEntry_found hcap ⟨hlen, hnodup, hchain⟩ hp hkp,
    ⟨by simpa using hlen, ?_, ?_⟩, ?_, ?_, ?_⟩
  · intro i j k0 hi hj hki hkj
    by_cases hir : i = p <;> by_cases hjr : j = p
    · rw [hir, hjr]
    · exfalso
      rw [hir, hkeyAt_self] at hki
      rw [hkeyAt_ne j hjr] at hkj
      injection hki with hki
      rw [← hki] at hkj
      exact hjr (hnodup j p k hj hp hkj hkp)
    · exfalso
      rw [hjr, hkeyAt_self] at hkj
      rw [hkeyAt_ne i hir] at hki
      injection hkj with hkj
      rw [← hkj] at hki
      exact hir (hnodup i p k hi hp hki hkp)
    · rw [hkeyAt_ne i hir] at hki
      rw [hkeyAt_ne j hjr] at hkj
      exact hnodup i j k0 hi hj hki hkj
  · intro q k0 hq hkq
    by_cases hqp : q = p
    · rw [hqp, hkeyAt_self] at hkq
      injection hkq with hkq
      rw [hqp, ← hkq]
      exact insertChain_lift hxs hpl (hchain p k hp hkp)
    · rw [hkeyAt_ne q hqp] at hkq
      exact insertChain_lift hxs hpl (hchain q k0 hq hkq)
  · have hc := countP_set liveB E p ⟨some k, v⟩ hpl
    have h1 : liveB (entryAt E p) = true := by
      show (entryAt E p).key.isSome = true
      rw [holdk]
      rfl
    have h2 : liveB ⟨some k, v⟩ = true := rfl
    rw [if_one_zero_true h1, if_one_zero_true h2] at hc
    show liveCount (E.set p ⟨some k, v⟩) = liveCount E
    simp only [liveCount]
    omega
  · have hc := countP_set tombB E p ⟨some k, v⟩ hpl
    have h1 : tombB (entryAt E p) = false := by
      show decide ((entryAt E p).key = none ∧ (entryAt E p).value ≠ Value.vNil) = false
      simp [holdk]
    have h2 : tombB ⟨some k, v⟩ = false := by
      show decide ((Entry.mk (some k) v).key = none ∧
        (Entry.mk (some k) v).value ≠ Value.vNil) = false
      simp
    rw [if_one_zero_false h1, if_one_zero_false h2] at hc
    show tombCount (E.set p ⟨some k, v⟩) = tombCount E
    simp only [tombCount]
    omega
  · intro k''
    by_cases hkk : k'' = k
    · subst hkk
      rw [if_pos rfl]
      have hfind' : (E.set p ⟨some k'', v⟩).find? (keyMatches k'')
          = some ⟨some k'', v⟩ := by
        apply find?_set_unique _ hpl (by show decide _ = true; simp)
        intro j hj hjp hpj
        have hkj : keyAt E j = some k'' := of_decide_eq_true hpj
        exact hjp (hnodup j p k'' (by rw [← hlen]; exact hj) hp hkj hkp)
      show ((E.set p ⟨some k'', v⟩).find? (keyMatches k'')).map Entry.value = some v
      rw [hfind']
      rfl
    · rw [if_neg hkk]
      have hx' : ¬ keyMatches k'' ⟨some k, v⟩ = true := by
        show ¬ decide ((Entry.mk (some k) v).key = some k'') = true
        simp
        exact fun h => hkk h.symm
      have hold' : ¬ keyMatches k'' (entryAt E p) = true := by
        show ¬ decide ((entryAt E p).key = some k'') = true
        simp [holdk]
        exact fun h => hkk h.symm
      show ((E.set p ⟨some k, v⟩).find? (keyMatches k'')).map Entry.value
          = (E.find? (keyMatches k'')).map Entry.value
      rw [find?_set_of_not _ hx' hold']

theorem lookupE_nil (k : Nat) : lookupE ([] : List Entry) k = none := rfl

theorem lookupE_cons_pos {e : Entry} {l : List Entry} {k : Nat}
    (h : e.key = some k) : lookupE (e :: l) k = some e.value := by
  rw [lookupE, List.find?_cons_of_pos l (by show decide (e.key = some k) = true; simp [h])]
  rfl

theorem lookupE_cons_neg {e : Entry} {l : List Entry} {k : Nat}
    (h : ¬ e.key = some k) : lookupE (e :: l) k = lookupE l k := by
  rw [lookupE, List.find?_cons_of_neg l (by
    show ¬ decide (e.key = some k) = true
    simpa using h)]
  rfl

theorem no_tomb_of_tombCount_zero {E : List Entry} (h : tombCount E = 0)
    {i : Nat} (hi : i < E.length) (hk : (entryAt E i).key = none) :
    (entryAt E i).value = Value.vNil := by
  by_contra hv
  have hmem : entryAt E i ∈ E := by
    rw [entryAt, List.getD_eq_getElem E emptyEntry hi]
    exact List.getElem_mem hi
  have := (List.countP_eq_zero.mp h) _ hmem
  exact this (by show decide ((entryAt E i).key = none ∧ (entryAt E i).value ≠ Value.vNil) = true; simp [hk, hv])

theorem entryAt_replicate (n i : Nat) :
    entryAt (List.replicate n emptyEntry) i = emptyEntry := by
  rw [entryAt, List.getD_eq_getElem?_getD, List.getElem?_replicate]
  by_cases h : i < n <;> simp [h]

theorem liveCount_replicate (n : Nat) : liveCount (List.replicate n emptyEntry) = 0 := by
  apply List.countP_eq_zero.mpr
  intro a ha
  rw [List.eq_of_mem_replicate ha]
  simp [liveB, emptyEntry]

theorem tombCount_replicate (n : Nat) : tombCount (List.replicate n emptyEntry) = 0 := by
  apply List.countP_eq_zero.mpr
  intro a ha
  rw [List.eq_of_mem_replicate ha]
  simp [tombB, emptyEntry]

theorem lookupE_replicate (n k : Nat) : lookupE (List.replicate n emptyEntry) k = none := by
  rw [lookupE, List.find?_eq_none.mpr]
  · rfl
  · intro a ha
    rw [List.eq_of_mem_replicate ha]
    simp [keyMatches, emptyEntry]

theorem entriesWF_replicate (H : Heap) (cap : Nat) :
    EntriesWF H (List.replicate cap emptyEntry) cap := by
  refine ⟨by simp, ?_, ?_⟩
  · intro i j k0 hi hj hki hkj
    rw [keyAt, entryAt_replicate] at hki
    cases hki
  · intro p k0 hp hkp
    rw [keyAt, entryAt_replicate] at hkp
    cases hkp

/-- The re-insertion loop of `adjustCapacity`: folding the old bucket
list into a fresh well-formed tombstone-free array. -/
theorem rehash_fold {H : Heap} {cap' : Nat} (hcap' : 0 < cap') :
    ∀ (rest : List Entry) (E : List Entry) (cnt : Nat),
      EntriesWF H E cap' →
      tombCount E = 0 →
      liveCount E + rest.countP liveB < cap' →
      (∀ e ∈ rest, ∀ k, e.key = some k → ¬ LiveInE E k) →
      List.Pairwise (fun a b => ∀ k, a.key = some k → ¬ b.key = some k) rest →
      ∃ E' cnt2,
        rest.foldl (rehashStep H cap') (some (E, cnt)) = some (E', cnt2) ∧
        EntriesWF H E' cap' ∧ tombCount E' = 0 ∧
        cnt2 = cnt + rest.countP liveB ∧
        liveCount E' = liveCount E + rest.countP liveB ∧
        (∀ k', lookupE E' k' =
          match lookupE E k' with
          | some v => some v
          | none => lookupE rest k') := by
  intro rest
  induction rest with
  | nil =>
    intro E cnt hwf htomb hspace hdis hpw
    refine ⟨E, cnt, rfl, hwf, htomb, by simp, by simp, ?_⟩
    intro k'
    rcases h : lookupE E k' with _ | v <;> simp [lookupE_nil]
  | cons e rest ih =>
    intro E cnt hwf htomb hspace hdis hpw
    rw [List.foldl_cons]
    rcases hek : e.key with _ | k
    · -- NULL key in the old array: skipped
      have hstep : rehashStep H cap' (some (E, cnt)) e = some (E, cnt) := by
        rw [rehashStep, Option.some_bind, hek]
      rw [hstep]
      have hlive_e : liveB e = false := by
        show e.key.isSome = false
        rw [hek]
        rfl
      have hcnt_cons : (e :: rest).countP liveB = rest.countP liveB := by
        rw [List.countP_cons, if_one_zero_false hlive_e]
        omega
      obtain ⟨E', cnt2, hfold, hwf', htomb', hcnt2, hlive', hlk⟩ :=
        ih E cnt hwf htomb (by omega)
          (fun e' he' => hdis e' (List.mem_cons_of_mem e he'))
          ((List.pairwise_cons.mp hpw).2)
      refine ⟨E', cnt2, hfold, hwf', htomb', by omega, by omega, ?_⟩
      intro k'
      rcases hE : lookupE E k' with _ | v
      · have := hlk k'
        rw [hE] at this
        rw [this, lookupE_cons_neg (by rw [hek]; simp)]
      · have := hlk k'
        rw [hE] at this
        rw [this]
    · -- live entry of the old array: re-insert it
      have hlive_e : liveB e = true := by
        show e.key.isSome = true
        rw [hek]
        rfl
      have hcnt_cons : (e :: rest).countP liveB = rest.countP liveB + 1 := by
        rw [List.countP_cons, if_one_zero_true hlive_e]
      have hnotlive : ¬ LiveInE E k := hdis e (List.mem_cons_self e rest) k hek
      have hempty : ∃ i, i < E.length ∧ isEmptyE (entryAt E i) := by
        apply exists_empty_slot
        rw [hwf.1, htomb]
        omega
      obtain ⟨r, hfind, hrlt, hrk, hwf1, hlive1, htomb1, hlk1⟩ :=
        insert_new_key hcap' hwf hek hnotlive hempty
      have hstep : rehashStep H cap' (some (E, cnt)) e = some (E.set r e, cnt + 1) := by
        rw [rehashStep, Option.some_bind, hek]
        show (findEntry H E cap' k).map _ = _
        rw [hfind]
        rfl
      rw [hstep]
      have hrl : r < E.length := by rw [hwf.1]; exact hrlt
      have hval_nil : (entryAt E r).value = Value.vNil :=
        no_tomb_of_tombCount_zero htomb hrl hrk
      have htomb1' : tombCount (E.set r e) = 0 := by
        rw [if_pos hval_nil] at htomb1
        omega
      have hdis1 : ∀ e' ∈ rest, ∀ k0, e'.key = some k0 → ¬ LiveInE (E.set r e) k0 := by
        intro e' he' k0 hk0
        rw [← lookupE_eq_none_iff]
        rw [hlk1 k0]
        by_cases hk0k : k0 = k
        · exfalso
          have := (List.pairwise_cons.mp hpw).1 e' he' k hek
          rw [hk0k] at hk0
          exact this hk0
        · rw [if_neg hk0k]
          rw [lookupE_eq_none_iff]
          exact hdis e' (List.mem_cons_of_mem e he') k0 hk0
      obtain ⟨E', cnt2, hfold, hwf', htomb', hcnt2, hlive', hlk'⟩ :=
        ih (E.set r e) (cnt + 1) hwf1 htomb1' (by omega)
          hdis1 ((List.pairwise_cons.mp hpw).2)
      refine ⟨E', cnt2, hfold, hwf', htomb', by omega, by omega, ?_⟩
      intro k'
      rw [hlk' k']
      by_cases hkk : k' = k
      · subst hkk
        have h1 : lookupE (E.set r e) k' = some e.value := by
          rw [hlk1 k', if_pos rfl]
        have h2 : lookupE E k' = none := lookupE_eq_none_iff.mpr hnotlive
        rw [h1, h2, lookupE_cons_pos hek]
      · have h1 : lookupE (E.set r e) k' = lookupE E k' := by
          rw [hlk1 k', if_neg hkk]
        rw [h1, lookupE_cons_neg (by rw [hek]; simp; exact fun h => hkk h.symm)]

/-- `adjustCapacity` succeeds on a well-formed table with enough room,
produces a tombstone-free well-formed array of the requested capacity,
recomputes `count` as the number of live entries, and preserves the
represented map. -/
theorem adjustCapacity_spec {H : Heap} {t : Table} {cap' : Nat}
    (hwf : TableWF H t) (hcap' : 0 < cap')
    (hspace : liveCount t.entries < cap') :
    ∃ t2, adjustCapacity H t cap' = some t2 ∧
      t2.capacity = cap' ∧ t2.count = liveCount t.entries ∧
      EntriesWF H t2.entries cap' ∧ tombCount t2.entries = 0 ∧
      liveCount t2.entries = liveCount t.entries ∧
      (∀ k', lookupE t2.entries k' = lookupE t.entries k') := by
  have hpw : List.Pairwise (fun a b => ∀ k, a.key = some k → ¬ b.key = some k) t.entries := by
    rw [List.pairwise_iff_getElem]
    intro i j hi hj hij k hik hjk
    have hki : keyAt t.entries i = some k := by
      rw [keyAt, entryAt, List.getD_eq_getElem t.entries emptyEntry hi, hik]
    have hkj : keyAt t.entries j = some k := by
      rw [keyAt, entryAt, List.getD_eq_getElem t.entries emptyEntry hj, hjk]
    have := hwf.wf.2.1 i j k (by rw [← hwf.wf.1]; exact hi) (by rw [← hwf.wf.1]; exact hj)
      hki hkj
    omega
  obtain ⟨E', cnt2, hfold, hwf', htomb', hcnt2, hlive', hlk'⟩ :=
    rehash_fold hcap' t.entries (List.replicate cap' emptyEntry) 0
      (entriesWF_replicate H cap') (tombCount_replicate cap')
      (by rw [liveCount_replicate]; simpa [liveCount] using hspace)
      (fun e he k hk hlive => by
        obtain ⟨e', he', hk'⟩ := hlive
        rw [List.eq_of_mem_replicate he'] at hk'
        cases hk')
      hpw
  refine ⟨⟨cnt2, cap', E'⟩, ?_, rfl, ?_, hwf', htomb', ?_, ?_⟩
  · rw [adjustCapacity, hfold]
    rfl
  · rw [show (Table.mk cnt2 cap' E').count = cnt2 from rfl, hcnt2]
    simp [liveCount]
  · rw [show (Table.mk cnt2 cap' E').entries = E' from rfl, hlive', liveCount_replicate]
    simp [liveCount]
  · intro k'
    have hk := hlk' k'
    rw [lookupE_replicate] at hk
    exact hk

theorem tableSetBody_eval (t1 : Table) (k : Nat) (v : Value) (i : Nat) :
    tableSetBody t1 k v i =
      (decide ((entryAt t1.entries i).key = none),
       ⟨if (entryAt t1.entries i).key = none ∧ (entryAt t1.entries i).value = Value.vNil
           then t1.count + 1 else t1.count,
        t1.capacity, t1.entries.set i ⟨some k, v⟩⟩) := rfl

/-- The probe-and-write stage of `tableSet`, on the (possibly grown)
table actually probed. -/
theorem tableSet_finish {H : Heap} {t1 : Table} (k : Nat) (v : Value)
    (hcap : 0 < t1.capacity)
    (hwf1 : EntriesWF H t1.entries t1.capacity)
    (hcnt1 : t1.count = liveCount t1.entries + tombCount t1.entries)
    (hload1 : 4 * (t1.count + 1) ≤ 3 * t1.capacity)
    (hpow1 : ∃ j, 3 ≤ j ∧ t1.capacity = 2 ^ j) :
    ∃ b t', (findEntry H t1.entries t1.capacity k).map (tableSetBody t1 k v)
        = some (b, t') ∧
      TableWF H t' ∧
      (∀ k', lookupE t'.entries k' = if k' = k then some v else lookupE t1.entries k') ∧
      (b = true ↔ lookupE t1.entries k = none) := by
  classical
  by_cases hlive : LiveInE t1.entries k
  · -- the key is present: overwrite its bucket
    obtain ⟨e, hmem, hk⟩ := hlive
    obtain ⟨p0, hp0, hpe⟩ := List.getElem_of_mem hmem
    have hkp : keyAt t1.entries p0 = some k := by
      rw [keyAt, entryAt, List.getD_eq_getElem t1.entries emptyEntry hp0, hpe, hk]
    have hp : p0 < t1.capacity := by rw [← hwf1.1]; exact hp0
    obtain ⟨hfind, hwf', hlive', htomb', hlk'⟩ := set_existing_key v hcap hwf1 hp hkp
    rw [hfind, Option.map_some', tableSetBody_eval]
    have hkey' : (entryAt t1.entries p0).key = some k := hkp
    have hb : decide ((entryAt t1.entries p0).key = none) = false := by
      rw [hkey']
      rfl
    have hcond : ¬ ((entryAt t1.entries p0).key = none ∧
        (entryAt t1.entries p0).value = Value.vNil) := by
      rw [hkey']
      rintro ⟨h, -⟩
      cases h
    rw [hb, if_neg hcond]
    refine ⟨false, ⟨t1.count, t1.capacity, t1.entries.set p0 ⟨some k, v⟩⟩, rfl, ?_, hlk', ?_⟩
    · refine ⟨hwf', Or.inr hpow1, ?_, by show 4 * t1.count ≤ 3 * t1.capacity; omega⟩
      show t1.count = liveCount (t1.entries.set p0 ⟨some k, v⟩)
        + tombCount (t1.entries.set p0 ⟨some k, v⟩)
      rw [hlive', htomb']
      exact hcnt1
    · constructor
      · intro h
        cases h
      · intro h
        exact absurd ⟨e, hmem, hk⟩ (lookupE_eq_none_iff.mp h)
  · -- the key is absent: write it into the returned NULL-key bucket
    have hempty : ∃ i, i < t1.entries.length ∧ isEmptyE (entryAt t1.entries i) := by
      apply exists_empty_slot
      rw [hwf1.1]
      omega
    obtain ⟨r, hfind, hrlt, hrk, hwf', hlive', htomb', hlk'⟩ :=
      insert_new_key hcap hwf1 (rfl : (Entry.mk (some k) v).key = some k) hlive hempty
    rw [hfind, Option.map_some', tableSetBody_eval]
    have hrk' : (entryAt t1.entries r).key = none := hrk
    have hb : decide ((entryAt t1.entries r).key = none) = true := by
      rw [hrk']
      rfl
    rw [hb]
    have hlknone : lookupE t1.entries k = none := lookupE_eq_none_iff.mpr hlive
    by_cases hv : (entryAt t1.entries r).value = Value.vNil
    · rw [if_pos ⟨hrk', hv⟩]
      rw [if_pos hv] at htomb'
      refine ⟨true, ⟨t1.count + 1, t1.capacity, t1.entries.set r ⟨some k, v⟩⟩, rfl, ?_,
        hlk', ⟨fun _ => hlknone, fun _ => rfl⟩⟩
      refine ⟨hwf', Or.inr hpow1, ?_,
        by show 4 * (t1.count + 1) ≤ 3 * t1.capacity; exact hload1⟩
      show t1.count + 1 = liveCount (t1.entries.set r ⟨some k, v⟩)
        + tombCount (t1.entries.set r ⟨some k, v⟩)
      rw [hlive']
      omega
    · rw [if_neg (by rintro ⟨-, h⟩; exact hv h)]
      rw [if_neg hv] at htomb'
      refine ⟨true, ⟨t1.count, t1.capacity, t1.entries.set r ⟨some k, v⟩⟩, rfl, ?_,
        hlk', ⟨fun _ => hlknone, fun _ => rfl⟩⟩
      refine ⟨hwf', Or.inr hpow1, ?_,
        by show 4 * t1.count ≤ 3 * t1.capacity; omega⟩
      show t1.count = liveCount (t1.entries.set r ⟨some k, v⟩)
        + tombCount (t1.entries.set r ⟨some k, v⟩)
      rw [hlive']
      omega

/-- Full functional specification of `tableSet` on a well-formed
table: it succeeds, preserves well-formedness, updates the represented
map exactly at `key`, and returns `true` exactly when the key was
absent. -/
theorem tableSet_spec {H : Heap} {t : Table} (k : Nat) (v : Value)
    (hwf : TableWF H t) :
    ∃ b t', tableSet H t k v = some (b, t') ∧ TableWF H t' ∧
      (∀ k', lookupE t'.entries k' = if k' = k then some v else lookupE t.entries k') ∧
      (b = true ↔ lookupE t.entries k = none) := by
  obtain ⟨hwfE, hcapPow, hcountEq, hload⟩ := hwf
  by_cases hgrow : 4 * (t.count + 1) > 3 * t.capacity
  · have hcapPos : 0 < growCapacity t.capacity := by
      rw [growCapacity]
      split <;> omega
    have hspace : liveCount t.entries < growCapacity t.capacity := by
      rw [growCapacity]
      split <;> omega
    obtain ⟨t2, hadj, hcap2, hcnt2, hwf2, htomb2, hlive2, hlk2⟩ :=
      adjustCapacity_spec ⟨hwfE, hcapPow, hcountEq, hload⟩ hcapPos hspace
    have hcap8 : t.capacity = 0 ∨ 8 ≤ t.capacity := by
      rcases hcapPow with h0 | ⟨j, hj, hcap⟩
      · exact Or.inl h0
      · right
        rw [hcap]
        calc (8 : Nat) = 2 ^ 3 := by norm_num
        _ ≤ 2 ^ j := Nat.pow_le_pow_right (by omega) hj
    have hpow2 : ∃ j, 3 ≤ j ∧ t2.capacity = 2 ^ j := by
      rw [hcap2, growCapacity]
      rcases hcap8 with h0 | h8
      · rw [h0, if_pos (by omega)]
        exact ⟨3, le_refl 3, by norm_num⟩
      · rw [if_neg (by omega)]
        rcases hcapPow with h0 | ⟨j, hj, hcap⟩
        · omega
        · exact ⟨j + 1, by omega, by rw [hcap, pow_succ]⟩
    have hwf2' : EntriesWF H t2.entries t2.capacity := by
      rw [hcap2]
      exact hwf2
    have hcap2pos : 0 < t2.capacity := by rw [hcap2]; exact hcapPos
    have hcnt2eq : t2.count = liveCount t2.entries + tombCount t2.entries := by
      rw [hcnt2, htomb2, hlive2]
      omega
    have hload2 : 4 * (t2.count + 1) ≤ 3 * t2.capacity := by
      rw [hcnt2, hcap2, growCapacity]
      rcases hcap8 with h0 | h8
      · rw [h0, if_pos (by omega)]
        omega
      · rw [if_neg (by omega)]
        omega
    obtain ⟨b, t', hrun, hwf', hlk', hbiff⟩ :=
      tableSet_finish k v hcap2pos hwf2' hcnt2eq hload2 hpow2
    refine ⟨b, t', ?_, hwf', ?_, ?_⟩
    · rw [tableSet, if_pos hgrow, hadj]
      simp only [Option.some_bind]
      exact hrun
    · intro k'
      rw [hlk' k']
      by_cases h : k' = k
      · rw [if_pos h, if_pos h]
      · rw [if_neg h, if_neg h, hlk2 k']
    · rw [hbiff, hlk2 k]
  · have hload1 : 4 * (t.count + 1) ≤ 3 * t.capacity := by omega
    have hcapPos : 0 < t.capacity := by omega
    have hpow1 : ∃ j, 3 ≤ j ∧ t.capacity = 2 ^ j := by
      rcases hcapPow with h0 | h
      · omega
      · exact h
    obtain ⟨b, t', hrun, hwf', hlk', hbiff⟩ :=
      tableSet_finish k v hcapPos hwfE hcountEq hload1 hpow1
    refine ⟨b, t', ?_, hwf', hlk', hbiff⟩
    rw [tableSet, if_neg hgrow]
    simp only [Option.some_bind]
    exact hrun

/-- `tableGet` on a well-formed table succeeds and returns exactly the
represented map's answer: `some none` when the key is absent (C
`return false`), `some (some v)` when it is bound to `v`. -/
theorem tableGet_spec {H : Heap} {t : Table} (k : Nat) (hwf : TableWF H t) :
    tableGet H t k = some (lookupE t.entries k) := by
  classical
  by_cases hc : t.count = 0
  · rw [tableGet, if_pos hc]
    have hlive0 : liveCount t.entries = 0 := by
      have := hwf.countEq
      omega
    have hnot : ¬ LiveInE t.entries k := by
      rintro ⟨e, hmem, hk⟩
      have hl : liveB e = true := by
        show e.key.isSome = true
        rw [hk]
        rfl
      have hpos : 0 < liveCount t.entries := List.countP_pos_iff.mpr ⟨e, hmem, hl⟩
      omega
    rw [lookupE_eq_none_iff.mpr hnot]
  · rw [tableGet, if_neg hc]
    have hcap : 0 < t.capacity := by
      have := hwf.countEq
      have := hwf.load
      omega
    by_cases hlive : LiveInE t.entries k
    · obtain ⟨e, hmem, hk⟩ := hlive
      obtain ⟨p0, hp0, hpe⟩ := List.getElem_of_mem hmem
      have hkp : keyAt t.entries p0 = some k := by
        rw [keyAt, entryAt, List.getD_eq_getElem t.entries emptyEntry hp0, hpe, hk]
      have hp : p0 < t.capacity := by rw [← hwf.wf.1]; exact hp0
      rw [findEntry_found hcap hwf.wf hp hkp]
      have hkp' : (List.getD t.entries p0 emptyEntry).key = some k := hkp
      rw [lookupE_eq_some_of_liveWith (fun i j k0 hi hj => hwf.wf.2.1 i j k0
        (by rw [← hwf.wf.1]; exact hi) (by rw [← hwf.wf.1]; exact hj))
        ⟨entryAt t.entries p0, by
          rw [entryAt, List.getD_eq_getElem t.entries emptyEntry hp0]
          exact List.getElem_mem hp0, hkp, rfl⟩]
      simp only [hkp']
      rfl
    · have hempty : ∃ i, i < t.entries.length ∧ isEmptyE (entryAt t.entries i) := by
        apply exists_empty_slot
        rw [hwf.wf.1]
        have := hwf.countEq
        have := hwf.load
        omega
      obtain ⟨r, hfind, hrlt, hrk, _⟩ := findEntry_absent hcap hwf.wf hlive hempty
      rw [hfind]
      have hrk' : (List.getD t.entries r emptyEntry).key = none := hrk
      rw [lookupE_eq_none_iff.mpr hlive]
      simp only [hrk']

/-- Full functional specification of `tableDelete` on a well-formed
table: a present key's bucket becomes a tombstone (`count` unchanged,
one fewer live bucket, one more tombstone) and the call returns true;
an absent key leaves the table unchanged and returns false. -/
theorem tableDelete_spec {H : Heap} {t : Table} (k : Nat) (hwf : TableWF H t) :
    ∃ b t', tableDelete H t k = some (b, t') ∧ TableWF H t' ∧
      (b = true ↔ ¬ lookupE t.entries k = none) ∧
      (∀ k', lookupE t'.entries k' = if k' = k then none else lookupE t.entries k') ∧
      t'.count = t.count ∧ t'.capacity = t.capacity ∧
      (b = true → liveCount t'.entries + 1 = liveCount t.entries ∧
        tombCount t'.entries = tombCount t.entries + 1 ∧
        ∃ p, p < t.capacity ∧ keyAt t.entries p = some k ∧
          t'.entries = t.entries.set p ⟨none, Value.vBool true⟩) := by
  classical
  by_cases hc : t.count = 0
  · have hlive0 : liveCount t.entries = 0 := by
      have := hwf.countEq
      omega
    have hnot : ¬ LiveInE t.entries k := by
      rintro ⟨e, hmem, hk⟩
      have hl : liveB e = true := by
        show e.key.isSome = true
        rw [hk]
        rfl
      have hpos : 0 < liveCount t.entries := List.countP_pos_iff.mpr ⟨e, hmem, hl⟩
      omega
    have hlknone : lookupE t.entries k = none := lookupE_eq_none_iff.mpr hnot
    refine ⟨false, t, by rw [tableDelete, if_pos hc], hwf, ?_, ?_, rfl, rfl, ?_⟩
    · constructor
      · intro h
        cases h
      · intro h
        exact absurd hlknone h
    · intro k'
      by_cases h : k' = k
      · rw [if_pos h, h, hlknone]
      · rw [if_neg h]
    · intro h
      cases h
  · have hcap : 0 < t.capacity := by
      have := hwf.countEq
      have := hwf.load
      omega
    by_cases hlive : LiveInE t.entries k
    · -- present: tombstone the bucket
      obtain ⟨e, hmem, hk⟩ := hlive
      obtain ⟨p0, hp0, hpe⟩ := List.getElem_of_mem hmem
      have hkp : keyAt t.entries p0 = some k := by
        rw [keyAt, entryAt, List.getD_eq_getElem t.entries emptyEntry hp0, hpe, hk]
      have hp : p0 < t.capacity := by rw [← hwf.wf.1]; exact hp0
      have hrun : tableDelete H t k
          = some (true, ⟨t.count, t.capacity, t.entries.set p0 ⟨none, Value.vBool true⟩⟩) := by
        rw [tableDelete, if_neg hc, findEntry_found hcap hwf.wf hp hkp, Option.some_bind]
        have hkp' : (List.getD t.entries p0 emptyEntry).key = some k := hkp
        simp only [hkp']
      obtain ⟨hlen, hnodup, hchain⟩ := hwf.wf
      have hts : ¬ isEmptyE (Entry.mk none (Value.vBool true)) := by
        rintro ⟨-, h⟩
        cases h
      have hkeyAt_self : keyAt (t.entries.set p0 ⟨none, Value.vBool true⟩) p0 = none := by
        rw [keyAt, entryAt_set_self _ hp0]
      have hkeyAt_ne : ∀ j, j ≠ p0 →
          keyAt (t.entries.set p0 ⟨none, Value.vBool true⟩) j = keyAt t.entries j := by
        intro j hj
        rw [keyAt, entryAt_set_ne _ (fun h => hj h.symm)]
        rfl
      have hwfE' : EntriesWF H (t.entries.set p0 ⟨none, Value.vBool true⟩) t.capacity := by
        refine ⟨by simpa using hlen, ?_, ?_⟩
        · intro i j k0 hi hj hki hkj
          by_cases hir : i = p0
          · rw [hir, hkeyAt_self] at hki
            cases hki
          · by_cases hjr : j = p0
            · rw [hjr, hkeyAt_self] at hkj
              cases hkj
            · rw [hkeyAt_ne i hir] at hki
              rw [hkeyAt_ne j hjr] at hkj
              exact hnodup i j k0 hi hj hki hkj
        · intro q k0 hq hkq
          by_cases hqp : q = p0
          · rw [hqp, hkeyAt_self] at hkq
            cases hkq
          · rw [hkeyAt_ne q hqp] at hkq
            exact insertChain_lift hts hp0 (hchain q k0 hq hkq)
      have hclive := countP_set liveB t.entries p0 ⟨none, Value.vBool true⟩ hp0
      have hl1 : liveB (entryAt t.entries p0) = true := by
        show (entryAt t.entries p0).key.isSome = true
        rw [show (entryAt t.entries p0).key = some k from hkp]
        rfl
      have hl2 : liveB ⟨none, Value.vBool true⟩ = false := rfl
      rw [if_one_zero_true hl1, if_one_zero_false hl2] at hclive
      have hctomb := countP_set tombB t.entries p0 ⟨none, Value.vBool true⟩ hp0
      have ht1 : tombB (entryAt t.entries p0) = false := by
        show decide ((entryAt t.entries p0).key = none ∧
          (entryAt t.entries p0).value ≠ Value.vNil) = false
        simp [show (entryAt t.entries p0).key = some k from hkp]
      have ht2 : tombB ⟨none, Value.vBool true⟩ = true := rfl
      rw [if_one_zero_false ht1, if_one_zero_true ht2] at hctomb
      have hlknt : ¬ LiveInE (t.entries.set p0 ⟨none, Value.vBool true⟩) k := by
        rintro ⟨e', hmem', hk'⟩
        obtain ⟨q, hq, hqe⟩ := List.getElem_of_mem hmem'
        have hql : q < t.capacity := by
          rw [← hlen]
          simpa using hq
        have hkq : keyAt (t.entries.set p0 ⟨none, Value.vBool true⟩) q = some k := by
          rw [keyAt, entryAt, List.getD_eq_getElem _ emptyEntry hq, hqe, hk']
        by_cases hqp : q = p0
        · rw [hqp, hkeyAt_self] at hkq
          cases hkq
        · rw [hkeyAt_ne q hqp] at hkq
          exact hqp (hnodup q p0 k hql hp hkq hkp)
      refine ⟨true, ⟨t.count, t.capacity, t.entries.set p0 ⟨none, Value.vBool true⟩⟩,
        hrun, ?_, ?_, ?_, rfl, rfl, ?_⟩
      · refine ⟨hwfE', hwf.capPow, ?_, hwf.load⟩
        show t.count = liveCount (t.entries.set p0 ⟨none, Value.vBool true⟩)
          + tombCount (t.entries.set p0 ⟨none, Value.vBool true⟩)
        have := hwf.countEq
        simp only [liveCount, tombCount] at *
        omega
      · exact ⟨fun _ => fun h =>
          absurd ⟨e, hmem, hk⟩ (lookupE_eq_none_iff.mp h), fun _ => rfl⟩
      · intro k'
        by_cases hkk : k' = k
        · rw [if_pos hkk, hkk]
          exact lookupE_eq_none_iff.mpr hlknt
        · rw [if_neg hkk]
          show ((t.entries.set p0 ⟨none, Value.vBool true⟩).find? (keyMatches k')).map
            Entry.value = (t.entries.find? (keyMatches k')).map Entry.value
          rw [find?_set_of_not _ (by
              show ¬ decide ((Entry.mk none (Value.vBool true)).key = some k') = true
              simp) (by
              show ¬ decide ((entryAt t.entries p0).key = some k') = true
              simp [show (entryAt t.entries p0).key = some k from hkp]
              exact fun h => hkk h.symm)]
      · intro _
        refine ⟨?_, ?_, p0, hp, hkp, rfl⟩
        · simp only [liveCount] at *
          omega
        · simp only [tombCount] at *
          omega
    · -- absent: report false, leave the table unchanged
      have hempty : ∃ i, i < t.entries.length ∧ isEmptyE (entryAt t.entries i) := by
        apply exists_empty_slot
        rw [hwf.wf.1]
        have := hwf.countEq
        have := hwf.load
        omega
      obtain ⟨r, hfind, hrlt, hrk, _⟩ := findEntry_absent hcap hwf.wf hlive hempty
      have hlknone : lookupE t.entries k = none := lookupE_eq_none_iff.mpr hlive
      have hrun : tableDelete H t k = some (false, t) := by
        rw [tableDelete, if_neg hc, hfind, Option.some_bind]
        have hrk' : (List.getD t.entries r emptyEntry).key = none := hrk
        simp only [hrk']
      refine ⟨false, t, hrun, hwf, ?_, ?_, rfl, rfl, ?_⟩
      · constructor
        · intro h
          cases h
        · intro h
          exact absurd hlknone h
      · intro k'
        by_cases h : k' = k
        · rw [if_pos h, h, hlknone]
        · rw [if_neg h]
      · intro h
        cases h

/-- `tableAddAll` on a well-formed destination succeeds and preserves
well-formedness (its source may be any table: only live entries are
copied, each through `tableSet`). -/
theorem tableAddAll_spec {H : Heap} (src : Table) {dst : Table} (hwf : TableWF H dst) :
    ∃ d', tableAddAll H src dst = some d' ∧ TableWF H d' := by
  rw [tableAddAll]
  generalize src.entries = l
  induction l generalizing dst with
  | nil => exact ⟨dst, rfl, hwf⟩
  | cons e l ih =>
    rw [List.foldl_cons]
    rcases hek : e.key with _ | k
    · have hstep : addAllStep H (some dst) e = some dst := by
        rw [addAllStep, Option.some_bind, hek]
      rw [hstep]
      exact ih hwf
    · obtain ⟨b, t', hrun, hwf', _, _⟩ := tableSet_spec k e.value hwf
      have hstep : addAllStep H (some dst) e = some t' := by
        rw [addAllStep, Option.some_bind, hek]
        show (tableSet H dst k e.value).map Prod.snd = some t'
        rw [hrun]
        rfl
      rw [hstep]
      exact ih hwf'

/-- The initial table is well-formed. -/
theorem tableWF_init (H : Heap) : TableWF H initTable := by
  refine ⟨⟨rfl, ?_, ?_⟩, Or.inl rfl, rfl, by decide⟩
  · intro i j k hi hj
    simp [initTable] at hi
  · intro p k hp
    simp [initTable] at hp

/-- Every public mutating operation preserves well-formedness and
succeeds (no probe loop diverges, no probe happens at capacity zero). -/
theorem runOp_wf {H : Heap} {t : Table} (op : TableOp) (hwf : TableWF H t) :
    ∃ t', runOp H t op = some t' ∧ TableWF H t' := by
  cases op with
  | set k v =>
    obtain ⟨b, t', hrun, hwf', _, _⟩ := tableSet_spec k v hwf
    exact ⟨t', by rw [runOp, hrun]; rfl, hwf'⟩
  | del k =>
    obtain ⟨b, t', hrun, hwf', _⟩ := tableDelete_spec k hwf
    exact ⟨t', by rw [runOp, hrun]; rfl, hwf'⟩
  | addAll src =>
    obtain ⟨d', hrun, hwf'⟩ := tableAddAll_spec src hwf
    exact ⟨d', by rw [runOp, hrun], hwf'⟩

/-- Any sequence of table operations from any well-formed table
succeeds and ends in a well-formed table. -/
theorem runOps_wf {H : Heap} (ops : List TableOp) :
    ∀ {t : Table}, TableWF H t → ∃ t', runOps H t ops = some t' ∧ TableWF H t' := by
  induction ops with
  | nil => exact fun hwf => ⟨_, rfl, hwf⟩
  | cons op ops ih =>
    intro t hwf
    obtain ⟨t1, hrun1, hwf1⟩ := runOp_wf op hwf
    obtain ⟨t', hrun', hwf'⟩ := ih hwf1
    exact ⟨t', by rw [runOps, hrun1, Option.some_bind, hrun'], hwf'⟩

/-! ### The probe loop of `tableFindString` -/

/-- One unfolding step of the string probe loop. -/
theorem findStringAux_succ (H : Heap) (E : List Entry) (cap : Nat) (chars : List Nat)
    (hash index fuel : Nat) :
    findStringAux H E cap chars hash index (fuel + 1) =
      match (List.getD E index emptyEntry).key with
      | none =>
        if (List.getD E index emptyEntry).value = Value.vNil then some none
        else findStringAux H E cap chars hash ((index + 1) % cap) fuel
      | some kp =>
        if (deref H kp).chars.length = chars.length ∧ (deref H kp).hash = hash ∧
            (deref H kp).chars = chars then
          some (some kp)
        else findStringAux H E cap chars hash ((index + 1) % cap) fuel := rfl

theorem findStringAux_step_empty {E : List Entry} {index : Nat}
    (H : Heap) (cap : Nat) (chars : List Nat) (hash fuel : Nat)
    (h : (List.getD E index emptyEntry).key = none)
    (hval : (List.getD E index emptyEntry).value = Value.vNil) :
    findStringAux H E cap chars hash index (fuel + 1) = some none := by
  have h' := h
  have hval' := hval
  simp only [List.getD_eq_getElem?_getD] at h' hval'
  simp [findStringAux_succ, h', hval']

theorem findStringAux_step_tomb {E : List Entry} {index : Nat}
    (H : Heap) (cap : Nat) (chars : List Nat) (hash fuel : Nat)
    (h : (List.getD E index emptyEntry).key = none)
    (hval : ¬ (List.getD E index emptyEntry).value = Value.vNil) :
    findStringAux H E cap chars hash index (fuel + 1) =
      findStringAux H E cap chars hash ((index + 1) % cap) fuel := by
  have h' := h
  have hval' := hval
  simp only [List.getD_eq_getElem?_getD] at h' hval'
  simp [findStringAux_succ, h', hval']

theorem findStringAux_step_found {E : List Entry} {index kp : Nat}
    {H : Heap} {chars : List Nat} {hash : Nat} (cap fuel : Nat)
    (h : (List.getD E index emptyEntry).key = some kp)
    (hcond : (deref H kp).chars.length = chars.length ∧ (deref H kp).hash = hash ∧
      (deref H kp).chars = chars) :
    findStringAux H E cap chars hash index (fuel + 1) = some (some kp) := by
  have h' := h
  simp only [List.getD_eq_getElem?_getD] at h'
  simp [findStringAux_succ, h', hcond.1, hcond.2.1, hcond.2.2]

theorem findStringAux_step_other {E : List Entry} {index kp : Nat}
    {H : Heap} {chars : List Nat} {hash : Nat} (cap fuel : Nat)
    (h : (List.getD E index emptyEntry).key = some kp)
    (hcond : ¬ ((deref H kp).chars.length = chars.length ∧ (deref H kp).hash = hash ∧
      (deref H kp).chars = chars)) :
    findStringAux H E cap chars hash index (fuel + 1) =
      findStringAux H E cap chars hash ((index + 1) % cap) fuel := by
  have h' := h
  simp only [List.getD_eq_getElem?_getD] at h'
  rw [findStringAux_succ]
  simp only [List.getD_eq_getElem?_getD, h']
  rw [if_neg hcond]

/-- Central characterisation of the string probe loop: if the first
decisive bucket (empty, or holding an equal string) on the probe
sequence is at step `jm`, the loop returns NULL if that bucket is
empty, and the bucket's interned string if it matches. -/
theorem findStringAux_walk (H : Heap) (E : List Entry) (cap : Nat) (chars : List Nat)
    (hash home : Nat) (hcap : 0 < cap) (jm : Nat) (hjm : jm < cap)
    (hstop : StopAtStr H E cap chars hash home jm)
    (hpre : ∀ j, j < jm → ¬ StopAtStr H E cap chars hash home j) :
    ∀ fuel t, t ≤ jm → jm - t < fuel →
      ∃ r, findStringAux H E cap chars hash (probe cap home t) fuel = some r ∧
        ((isEmptyE (entryAt E (probe cap home jm)) ∧ r = none) ∨
         (∃ kp, keyAt E (probe cap home jm) = some kp ∧ r = some kp ∧
           (deref H kp).chars = chars)) := by
  intro fuel
  induction fuel with
  | zero => intro t ht hfuel; omega
  | succ fuel ih =>
    intro t ht hfuel
    rcases Nat.eq_or_lt_of_le ht with hteq | htlt
    · subst hteq
      rcases hk : (entryAt E (probe cap home t)).key with _ | kp
      · have hv : (entryAt E (probe cap home t)).value = Value.vNil := by
          rcases hstop with hem | ⟨kp, hkp, _⟩
          · exact hem.2
          · rw [keyAt, hk] at hkp
            cases hkp
        simp only [entryAt] at hk hv
        refine ⟨none, ?_, Or.inl ⟨⟨by simpa [entryAt] using hk, by simpa [entryAt] using hv⟩, rfl⟩⟩
        rw [findStringAux_step_empty H cap chars hash fuel hk hv]
      · have hcond : (deref H kp).chars.length = chars.length ∧
            (deref H kp).hash = hash ∧ (deref H kp).chars = chars := by
          rcases hstop with hem | ⟨kp', hkp', hc1, hc2, hc3⟩
          · rw [hem.1] at hk
            cases hk
          · rw [keyAt, hk] at hkp'
            injection hkp' with hkp'
            subst hkp'
            exact ⟨hc1, hc2, hc3⟩
        simp only [entryAt] at hk
        refine ⟨some kp, ?_, Or.inr ⟨kp, by simpa [keyAt, entryAt] using hk, rfl, hcond.2.2⟩⟩
        rw [findStringAux_step_found cap fuel hk hcond]
    · have hnstop := hpre t htlt
      rcases hk : (entryAt E (probe cap home t)).key with _ | kp
      · have hv : ¬ (entryAt E (probe cap home t)).value = Value.vNil := by
          intro hv
          exact hnstop (Or.inl ⟨hk, hv⟩)
        simp only [entryAt] at hk hv
        obtain ⟨r, hrun, hr⟩ := ih (t + 1) htlt (by omega)
        refine ⟨r, ?_, hr⟩
        rw [probe_succ] at hrun
        rw [findStringAux_step_tomb H cap chars hash fuel hk hv]
        exact hrun
      · have hcond : ¬ ((deref H kp).chars.length = chars.length ∧
            (deref H kp).hash = hash ∧ (deref H kp).chars = chars) := by
          intro hcond
          exact hnstop (Or.inr ⟨kp, by simpa [keyAt] using hk, hcond⟩)
        simp only [entryAt] at hk
        obtain ⟨r, hrun, hr⟩ := ih (t + 1) htlt (by omega)
        refine ⟨r, ?_, hr⟩
        rw [probe_succ] at hrun
        rw [findStringAux_step_other cap fuel hk hcond]
        exact hrun

/-- `tableFindString` on a well-formed table always has a defined
result; a non-NULL result is a live interned pointer with exactly the
probed-for bytes; a NULL result means no live entry with the
probed-for hash has those bytes. -/
theorem tableFindString_spec {H : Heap} {t : Table} (chars : List Nat) (hash : Nat)
    (hwf : TableWF H t) :
    ∃ r, tableFindString H t chars hash = some r ∧
      (∀ kp, r = some kp → LiveInE t.entries kp ∧ (deref H kp).chars = chars) ∧
      (r = none → ∀ i kp, i < t.capacity → keyAt t.entries i = some kp →
        (deref H kp).hash = hash → ¬ (deref H kp).chars = chars) := by
  classical
  obtain ⟨⟨hlen, hnodup, hchain⟩, hcapPow, hcountEq, hload⟩ := hwf
  by_cases hc : t.count = 0
  · refine ⟨none, by rw [tableFindString, if_pos hc], by simp, ?_⟩
    intro _ i kp hi hkey _ _
    have hlive : LiveInE t.entries kp :=
      liveInE_of_keyAt (by rw [hlen]; exact hi) hkey
    obtain ⟨e, hmem, hek⟩ := hlive
    have hl : liveB e = true := by
      show e.key.isSome = true
      rw [hek]
      rfl
    have hpos : 0 < liveCount t.entries := List.countP_pos_iff.mpr ⟨e, hmem, hl⟩
    have : liveCount t.entries = 0 := by omega
    omega
  · have hcap : 0 < t.capacity := by
      rcases Nat.eq_zero_or_pos t.capacity with h0 | h
      · rw [h0] at hload
        omega
      · exact h
    have hslot : liveCount t.entries + tombCount t.entries < t.entries.length := by
      rw [hlen]
      omega
    obtain ⟨i, hi, hie⟩ := exists_empty_slot hslot
    rw [hlen] at hi
    obtain ⟨j0, hj0, hj0e⟩ := probe_surj hcap (hash % t.capacity) hi
    have hex : ∃ j, StopAtStr H t.entries t.capacity chars hash (hash % t.capacity) j :=
      ⟨j0, Or.inl (by rw [hj0e]; exact hie)⟩
    have hstop := Nat.find_spec hex
    have hpre : ∀ j, j < Nat.find hex →
        ¬ StopAtStr H t.entries t.capacity chars hash (hash % t.capacity) j :=
      fun j hj => Nat.find_min hex hj
    have hjm : Nat.find hex < t.capacity :=
      lt_of_le_of_lt (Nat.find_min' hex (Or.inl (by rw [hj0e]; exact hie))) hj0
    obtain ⟨r, hrun, hr⟩ :=
      findStringAux_walk H t.entries t.capacity chars hash (hash % t.capacity) hcap
        (Nat.find hex) hjm hstop hpre t.capacity 0 (by omega) (by omega)
    have hhome : hash % t.capacity < t.capacity := Nat.mod_lt _ hcap
    have hrun' : tableFindString H t chars hash = some r := by
      rw [tableFindString, if_neg hc, if_neg (Nat.pos_iff_ne_zero.mp hcap)]
      rw [← probe_zero (hash % t.capacity) hhome, hrun]
    refine ⟨r, hrun', ?_, ?_⟩
    · intro kp hrkp
      rcases hr with ⟨_, hrn⟩ | ⟨kp', hkp', hrs, hchars⟩
      · rw [hrn] at hrkp
        cases hrkp
      · rw [hrs] at hrkp
        injection hrkp with hrkp
        subst hrkp
        exact ⟨liveInE_of_keyAt (by rw [hlen]; exact probe_lt hcap _ _) hkp', hchars⟩
    · intro hrn i' kp hi' hkey hh hchars
      rcases hr with ⟨hem, _⟩ | ⟨kp', _, hrs, _⟩
      · obtain ⟨jr, hjr, hjre, hjrc⟩ := hchain i' kp hi' hkey
        have hhomeq : homeOf H t.capacity kp = hash % t.capacity := by
          rw [homeOf, hh]
        rw [hhomeq] at hjre hjrc
        have hstopr : StopAtStr H t.entries t.capacity chars hash (hash % t.capacity) jr :=
          Or.inr ⟨kp, by rw [hjre]; exact hkey, by rw [hchars], hh, hchars⟩
        have hle : Nat.find hex ≤ jr := Nat.find_min' hex hstopr
        rcases Nat.eq_or_lt_of_le hle with heq | hlt
        · rw [heq, hjre] at hem
          have hkn : keyAt t.entries i' = none := hem.1
          rw [hkn] at hkey
          cases hkey
        · exact hjrc (Nat.find hex) hlt hem
      · rw [hrs] at hrn
        cases hrn

/-! ### Heap extension -/

theorem deref_append {H : Heap} {p : Nat} (hp : p < H.length) (X : List ObjData) :
    deref (H ++ X) p = deref H p := by
  rw [deref, deref, List.getD_eq_getElem?_getD, List.getD_eq_getElem?_getD,
    List.getElem?_append, if_pos hp]

theorem deref_append_self (H : Heap) (x : ObjData) :
    deref (H ++ [x]) H.length = x := by
  rw [deref, List.getD_eq_getElem?_getD]
  simp

/-- Structural well-formedness reads the heap only through the hashes
of the live keys, so extending the heap preserves it whenever every
live key is an allocated pointer. -/
theorem entriesWF_extend {H : Heap} {E : List Entry} {cap : Nat} (X : List ObjData)
    (hwf : EntriesWF H E cap)
    (hbound : ∀ p k, p < cap → keyAt E p = some k → k < H.length) :
    EntriesWF (H ++ X) E cap := by
  obtain ⟨hlen, hnodup, hchain⟩ := hwf
  refine ⟨hlen, hnodup, ?_⟩
  intro p k hp hk
  have hkb := hbound p k hp hk
  have hh : homeOf (H ++ X) cap k = homeOf H cap k := by
    rw [homeOf, homeOf, deref_append hkb]
  rw [hh]
  exact hchain p k hp hk

theorem tableWF_extend {H : Heap} {t : Table} (X : List ObjData)
    (hwf : TableWF H t)
    (hbound : ∀ e ∈ t.entries, ∀ p, e.key = some p → p < H.length) :
    TableWF (H ++ X) t := by
  refine ⟨entriesWF_extend X hwf.wf ?_, hwf.capPow, hwf.countEq, hwf.load⟩
  intro p k hp hk
  have hpl : p < t.entries.length := by rw [hwf.wf.1]; exact hp
  have hmem : entryAt t.entries p ∈ t.entries := by
    rw [entryAt, List.getD_eq_getElem t.entries emptyEntry hpl]
    exact List.getElem_mem hpl
  exact hbound _ hmem k hk

/-! ### String interning -/

/-- Only one object can be interned for a given byte content. -/
theorem interned_unique {σ : StrState} (hinv : StrInv σ) {c : List Nat} {p q : Nat}
    (hp : Interned σ c p) (hq : Interned σ c q) : p = q := by
  obtain ⟨⟨e1, hm1, hk1⟩, hc1⟩ := hp
  obtain ⟨⟨e2, hm2, hk2⟩, hc2⟩ := hq
  exact hinv.2.2.2 e1 hm1 e2 hm2 p q hk1 hk2 (by rw [hc1, hc2])

/-- Shared body of `copyString` and `takeString`: always defined on an
invariant-satisfying state; returns an interned pointer for the bytes,
preserves the invariant and every existing interning, and only extends
the heap. -/
theorem internBody_spec {σ : StrState} (hinv : StrInv σ) (b : List Nat) :
    ∃ σ' p, copyString σ b = some (σ', p) ∧ takeString σ b = some (σ', p) ∧
      StrInv σ' ∧ Interned σ' b p ∧
      (∀ c q, Interned σ c q → Interned σ' c q) ∧
      (∃ X, σ'.heap = σ.heap ++ X) := by
  obtain ⟨hwf, hbound, hhash, huniq⟩ := hinv
  obtain ⟨r, hfind, hsome, hnone⟩ := tableFindString_spec b (hashString b) hwf
  rcases r with _ | p
  · -- intern miss: allocate a fresh object and intern it
    have hwf' : TableWF (σ.heap ++ [⟨hashString b, b⟩]) σ.strings :=
      tableWF_extend _ hwf hbound
    obtain ⟨isNew, t', hset, hwft', hlk, hnew⟩ := tableSet_spec σ.heap.length Value.vNil hwf'
    have hlive' : ∀ q, LiveInE t'.entries q → q = σ.heap.length ∨ LiveInE σ.strings.entries q := by
      intro q hlv
      have hlq : ¬ lookupE t'.entries q = none := fun h => (lookupE_eq_none_iff.mp h) hlv
      rw [hlk q] at hlq
      by_cases hqp : q = σ.heap.length
      · exact Or.inl hqp
      · rw [if_neg hqp] at hlq
        right
        by_contra hn
        exact hlq (lookupE_eq_none_iff.mpr hn)
    have hLen : (σ.heap ++ [(⟨hashString b, b⟩ : ObjData)]).length = σ.heap.length + 1 := by
      simp
    have hderefp : deref (σ.heap ++ [(⟨hashString b, b⟩ : ObjData)]) σ.heap.length
        = ⟨hashString b, b⟩ := deref_append_self σ.heap _
    have hnotal : ∀ q, LiveInE σ.strings.entries q →
        ¬ (deref σ.heap q).chars = b := by
      intro q hlv hcq
      obtain ⟨e0, hm0, hk0⟩ := hlv
      obtain ⟨i0, hi0, hei0⟩ := List.getElem_of_mem hm0
      have hkey0 : keyAt σ.strings.entries i0 = some q := by
        rw [keyAt, entryAt, List.getD_eq_getElem σ.strings.entries emptyEntry hi0, hei0, hk0]
      have hih : (deref σ.heap q).hash = hashString b := by
        rw [hhash e0 hm0 q hk0, hcq]
      exact hnone rfl i0 q (by rw [← hwf.wf.1]; exact hi0) hkey0 hih hcq
    have hboundOld : ∀ q, LiveInE σ.strings.entries q → q < σ.heap.length := by
      rintro q ⟨e0, hm0, hk0⟩
      exact hbound e0 hm0 q hk0
    have hintp : Interned ⟨σ.heap ++ [⟨hashString b, b⟩], t'⟩ b σ.heap.length := by
      refine ⟨?_, by rw [show (⟨σ.heap ++ [⟨hashString b, b⟩], t'⟩ : StrState).heap
        = σ.heap ++ [⟨hashString b, b⟩] from rfl, hderefp]⟩
      have h1 : lookupE t'.entries σ.heap.length = some Value.vNil := by
        rw [hlk, if_pos rfl]
      by_contra hn
      rw [lookupE_eq_none_iff.mpr hn] at h1
      cases h1
    have hpres : ∀ c q, Interned σ c q →
        Interned ⟨σ.heap ++ [⟨hashString b, b⟩], t'⟩ c q := by
      rintro c q ⟨hlv, hcq⟩
      have hql : q < σ.heap.length := hboundOld q hlv
      refine ⟨?_, ?_⟩
      · have h1 : lookupE t'.entries q = lookupE σ.strings.entries q := by
          rw [hlk, if_neg (by omega)]
        by_contra hn
        have h2 := lookupE_eq_none_iff.mpr hn
        show False
        rw [show (⟨σ.heap ++ [⟨hashString b, b⟩], t'⟩ : StrState).strings = t' from rfl] at h2
        rw [h1] at h2
        exact (lookupE_eq_none_iff.mp h2) hlv
      · show (deref (σ.heap ++ [⟨hashString b, b⟩]) q).chars = c
        rw [deref_append hql]
        exact hcq
    have hinv' : StrInv ⟨σ.heap ++ [⟨hashString b, b⟩], t'⟩ := by
      refine ⟨hwft', ?_, ?_, ?_⟩
      · intro e hmem q hq
        rcases hlive' q ⟨e, hmem, hq⟩ with hpq | hold
        · rw [hLen]
          omega
        · have := hboundOld q hold
          rw [hLen]
          omega
      · intro e hmem q hq
        rcases hlive' q ⟨e, hmem, hq⟩ with hpq | hold
        · subst hpq
          rw [hderefp]
        · have hql := hboundOld q hold
          show (deref (σ.heap ++ [⟨hashString b, b⟩]) q).hash
            = hashString (deref (σ.heap ++ [⟨hashString b, b⟩]) q).chars
          rw [deref_append hql]
          obtain ⟨e0, hm0, hk0⟩ := hold
          exact hhash e0 hm0 q hk0
      · intro e1 hm1 e2 hm2 q1 q2 hk1 hk2 hceq
        rcases hlive' q1 ⟨e1, hm1, hk1⟩ with hp1 | ho1 <;>
          rcases hlive' q2 ⟨e2, hm2, hk2⟩ with hp2 | ho2
        · rw [hp1, hp2]
        · exfalso
          subst hp1
          have hql2 := hboundOld q2 ho2
          rw [hderefp] at hceq
          rw [deref_append hql2] at hceq
          exact hnotal q2 ho2 (by rw [← hceq])
        · exfalso
          subst hp2
          have hql1 := hboundOld q1 ho1
          rw [hderefp] at hceq
          rw [deref_append hql1] at hceq
          exact hnotal q1 ho1 (by rw [hceq])
        · have hql1 := hboundOld q1 ho1
          have hql2 := hboundOld q2 ho2
          rw [deref_append hql1, deref_append hql2] at hceq
          obtain ⟨f1, hfm1, hfk1⟩ := ho1
          obtain ⟨f2, hfm2, hfk2⟩ := ho2
          exact huniq f1 hfm1 f2 hfm2 q1 q2 hfk1 hfk2 hceq
    refine ⟨⟨σ.heap ++ [⟨hashString b, b⟩], t'⟩, σ.heap.length, ?_, ?_, hinv', hintp,
      hpres, ⟨[⟨hashString b, b⟩], rfl⟩⟩
    · simp only [copyString]
      rw [hfind, Option.some_bind]
      simp only [allocateString]
      rw [hset]
      rfl
    · simp only [takeString]
      rw [hfind, Option.some_bind]
      simp only [allocateString]
      rw [hset]
      rfl
  · -- intern hit: return the canonical object
    obtain ⟨hlive, hchars⟩ := hsome p rfl
    refine ⟨σ, p, ?_, ?_, ⟨hwf, hbound, hhash, huniq⟩, ⟨hlive, hchars⟩,
      fun c q h => h, ⟨[], by simp⟩⟩
    · simp only [copyString]
      rw [hfind, Option.some_bind]
    · simp only [takeString]
      rw [hfind, Option.some_bind]

/-- Each interning call succeeds on an invariant-satisfying state,
returns an interned pointer for its argument, and preserves the
invariant and all existing internings. -/
theorem runIntern1_spec {σ : StrState} (hinv : StrInv σ) (op : InternOp) :
    ∃ σ' p, runIntern1 σ op = some (σ', p) ∧ StrInv σ' ∧
      Interned σ' (internArg op) p ∧
      (∀ c q, Interned σ c q → Interned σ' c q) := by
  cases op with
  | copy bts =>
    obtain ⟨σ', p, hc, _, hinv', hint, hpres, _⟩ := internBody_spec hinv bts
    exact ⟨σ', p, hc, hinv', hint, hpres⟩
  | take bts =>
    obtain ⟨σ', p, _, ht, hinv', hint, hpres, _⟩ := internBody_spec hinv bts
    exact ⟨σ', p, ht, hinv', hint, hpres⟩

/-- `initVM`'s interning state satisfies the invariant. -/
theorem strInv_init : StrInv initStr := by
  refine ⟨tableWF_init [], ?_, ?_, ?_⟩
  · intro e hmem
    simp [initStr, initTable] at hmem
  · intro e hmem
    simp [initStr, initTable] at hmem
  · intro e1 hm1
    simp [initStr, initTable] at hm1

/-- A sequence of interning calls always succeeds, and every returned
pointer is interned for the call's bytes in the final state. -/
theorem runInterns_spec {σ : StrState} (hinv : StrInv σ) (ops : List InternOp) :
    ∃ (σ' : StrState) (ps : List Nat),
      runInterns σ ops = some (σ', ps) ∧ StrInv σ' ∧ ps.length = ops.length ∧
      (∀ (i : Nat) a p, ops[i]? = some a → ps[i]? = some p →
        Interned σ' (internArg a) p) ∧
      (∀ c q, Interned σ c q → Interned σ' c q) := by
  induction ops generalizing σ with
  | nil =>
    refine ⟨σ, [], rfl, hinv, rfl, ?_, fun c q h => h⟩
    intro i a p ha
    simp at ha
  | cons op ops ih =>
    obtain ⟨σ1, p, h1, hinv1, hint1, hpres1⟩ := runIntern1_spec hinv op
    obtain ⟨σ', ps, hrun, hinv', hlen, hall, hpres⟩ := ih hinv1
    refine ⟨σ', p :: ps, ?_, hinv', by simp [hlen], ?_,
      fun c q h => hpres c q (hpres1 c q h)⟩
    · rw [runInterns, h1, Option.some_bind, hrun]
      rfl
    · intro i a q ha hq
      cases i with
      | zero =>
        simp at ha hq
        subst ha
        subst hq
        exact hpres _ _ hint1
      | succ i =>
        simp at ha hq
        exact hall i a q ha hq

/-- **C4**: string interning gives reference equality for equal
content — in any sequence of `copyString`/`takeString` calls starting
from `initVM`, every call succeeds, and any two calls whose byte
arguments have equal content return the very same object pointer. -/
theorem C4_intern_unique (ops : List InternOp) :
    ∃ (σ : StrState) (ps : List Nat),
      runInterns initStr ops = some (σ, ps) ∧ ps.length = ops.length ∧
      ∀ (i j : Nat) a b p q, ops[i]? = some a → ops[j]? = some b →
        ps[i]? = some p → ps[j]? = some q →
        internArg a = internArg b → p = q := by
  obtain ⟨σ, ps, hrun, hinv, hlen, hall, _⟩ := runInterns_spec strInv_init ops
  refine ⟨σ, ps, hrun, hlen, ?_⟩
  intro i j a b p q ha hb hp hq heq
  have h1 := hall i a p ha hp
  have h2 := hall j b q hb hq
  rw [heq] at h1
  exact interned_unique hinv h1 h2

/-! ### Claims C5, C6, C8, C10 -/

/-- **C5**: starting from `initTable`, after any sequence of
`tableSet`/`tableDelete`/`tableAddAll` operations the load-factor
bound `count ≤ 0.75 · capacity` holds (stated integrally as
`4 · count ≤ 3 · capacity`, which is exact because the capacity is a
power of two or zero), and the capacity is 0 or a power of two at
least 8. -/
theorem C5_load_factor_capacity (H : Heap) (ops : List TableOp) :
    ∃ t, runOps H initTable ops = some t ∧
      4 * t.count ≤ 3 * t.capacity ∧
      (t.capacity = 0 ∨ ∃ k, 3 ≤ k ∧ t.capacity = 2 ^ k) := by
  obtain ⟨t, hrun, hwf⟩ := runOps_wf ops (tableWF_init H)
  exact ⟨t, hrun, hwf.load, hwf.capPow⟩

/-- Inserting a list of distinct keys updates the represented map
pointwise: every inserted key resolves to its value and all other
lookups are unchanged. -/
theorem setAll_lookup (H : Heap) (kvs : List (Nat × Value)) :
    ∀ {t : Table}, TableWF H t → (kvs.map Prod.fst).Nodup →
    ∃ t', runOps H t (kvs.map fun p => TableOp.set p.1 p.2) = some t' ∧ TableWF H t' ∧
      (∀ p ∈ kvs, lookupE t'.entries p.1 = some p.2) ∧
      (∀ k, k ∉ kvs.map Prod.fst → lookupE t'.entries k = lookupE t.entries k) := by
  induction kvs with
  | nil =>
    intro t hwf _
    exact ⟨t, rfl, hwf, by simp, fun k _ => rfl⟩
  | cons p kvs ih =>
    intro t hwf hnd
    obtain ⟨b, t1, hset, hwf1, hlk1, _⟩ := tableSet_spec p.1 p.2 hwf
    have hnd2 : p.1 ∉ kvs.map Prod.fst ∧ (kvs.map Prod.fst).Nodup :=
      List.nodup_cons.mp (by simpa using hnd)
    obtain ⟨t', hrun, hwf', hmem, hout⟩ := ih hwf1 hnd2.2
    refine ⟨t', ?_, hwf', ?_, ?_⟩
    · rw [List.map_cons, runOps, runOp, hset]
      simp only [Option.map_some', Option.some_bind]
      exact hrun
    · intro q hq
      rcases List.mem_cons.mp hq with hq1 | hq2
      · rw [hq1]
        rw [hout p.1 hnd2.1, hlk1 p.1, if_pos rfl]
      · exact hmem q hq2
    · intro k hk
      have hk1 : k ∉ kvs.map Prod.fst := fun h => hk (by simp [h])
      have hkp : ¬ k = p.1 := fun h => hk (by simp [h])
      rw [hout k hk1, hlk1 k, if_neg hkp]

/-- **C6**: table round-trip — from a freshly initialised table,
setting any sequence of distinct keys makes every key resolve to its
value (`tableGet` returns true with the value), and deleting one key
makes it unresolvable (`tableGet` returns false) while all other keys
still resolve to their values. -/
theorem C6_round_trip (H : Heap) (kvs : List (Nat × Value))
    (hnd : (kvs.map Prod.fst).Nodup) :
    ∃ t, runOps H initTable (kvs.map fun p => TableOp.set p.1 p.2) = some t ∧
      (∀ p ∈ kvs, tableGet H t p.1 = some (some p.2)) ∧
      (∀ q ∈ kvs, ∃ t', tableDelete H t q.1 = some (true, t') ∧
        tableGet H t' q.1 = some none ∧
        ∀ p ∈ kvs, ¬ p.1 = q.1 → tableGet H t' p.1 = some (some p.2)) := by
  obtain ⟨t, hrun, hwf, hmem, _⟩ := setAll_lookup H kvs (tableWF_init H) hnd
  refine ⟨t, hrun, ?_, ?_⟩
  · intro p hp
    rw [tableGet_spec p.1 hwf, hmem p hp]
  · intro q hq
    obtain ⟨bd, t', hdel, hwf', hbiff, hlk', hcnt, hcap, hbt⟩ := tableDelete_spec q.1 hwf
    have hbd : bd = true := hbiff.mpr (by rw [hmem q hq]; simp)
    subst hbd
    refine ⟨t', hdel, ?_, ?_⟩
    · rw [tableGet_spec q.1 hwf', hlk' q.1, if_pos rfl]
    · intro p hp hne
      rw [tableGet_spec p.1 hwf', hlk' p.1, if_neg hne, hmem p hp]

/-- Witness for C6: the round trip at the concrete key/value pairs
`0 ↦ 1, 1 ↦ 2` on the empty heap. -/
theorem C6_round_trip_witness :
    ([((0 : Nat), Value.vNum 1), (1, Value.vNum 2)].map Prod.fst).Nodup ∧
    ∃ t, runOps [] initTable
        ([((0 : Nat), Value.vNum 1), (1, Value.vNum 2)].map fun p => TableOp.set p.1 p.2)
        = some t ∧
      (∀ p ∈ [((0 : Nat), Value.vNum 1), (1, Value.vNum 2)],
        tableGet [] t p.1 = some (some p.2)) ∧
      (∀ q ∈ [((0 : Nat), Value.vNum 1), (1, Value.vNum 2)],
        ∃ t', tableDelete [] t q.1 = some (true, t') ∧
          tableGet [] t' q.1 = some none ∧
          ∀ p ∈ [((0 : Nat), Value.vNum 1), (1, Value.vNum 2)],
            ¬ p.1 = q.1 → tableGet [] t' p.1 = some (some p.2)) :=
  ⟨by decide, C6_round_trip [] [(0, Value.vNum 1), (1, Value.vNum 2)] (by decide)⟩

/-- **C8**: `tableDelete` on a present key overwrites its bucket with
the tombstone entry (NULL key, boolean `true` value), returns true and
leaves `count` unchanged (live entries drop by one, tombstones grow by
one); and on every table reachable from `initTable` by the public
mutating operations, `count` equals live entries plus tombstones. -/
theorem C8_tombstones_count :
    (∀ (H : Heap) (t : Table) (k : Nat), TableWF H t → ¬ lookupE t.entries k = none →
      ∃ t', tableDelete H t k = some (true, t') ∧ t'.count = t.count ∧
        liveCount t'.entries + 1 = liveCount t.entries ∧
        tombCount t'.entries = tombCount t.entries + 1 ∧
        ∃ p, p < t.capacity ∧ keyAt t.entries p = some k ∧
          t'.entries = t.entries.set p ⟨none, Value.vBool true⟩) ∧
    (∀ (H : Heap) (ops : List TableOp), ∃ t, runOps H initTable ops = some t ∧
      t.count = liveCount t.entries + tombCount t.entries) := by
  constructor
  · intro H t k hwf hpresent
    obtain ⟨bd, t', hdel, hwf', hbiff, hlk', hcnt, hcap, hbt⟩ := tableDelete_spec k hwf
    have hbd : bd = true := hbiff.mpr hpresent
    subst hbd
    obtain ⟨hl, htm, hp⟩ := hbt rfl
    exact ⟨t', hdel, hcnt, hl, htm, hp⟩
  · intro H ops
    obtain ⟨t, hrun, hwf⟩ := runOps_wf ops (tableWF_init H)
    exact ⟨t, hrun, hwf.countEq⟩

/-- Witness for C8: deleting key 0 from a table that holds it (built
by one `tableSet` on the fresh table) returns true and keeps `count`. -/
theorem C8_tombstones_count_witness :
    ∃ (H : Heap) (t : Table), TableWF H t ∧ ¬ lookupE t.entries 0 = none ∧
      ∃ t', tableDelete H t 0 = some (true, t') ∧ t'.count = t.count := by
  obtain ⟨b, t, hset, hwf, hlk, _⟩ := tableSet_spec 0 (Value.vNum 1) (tableWF_init [])
  have hl : ¬ lookupE t.entries 0 = none := by
    rw [hlk 0, if_pos rfl]
    simp
  obtain ⟨t', hdel, hcnt, _⟩ := C8_tombstones_count.1 [] t 0 hwf hl
  exact ⟨[], t, hwf, hl, t', hdel, hcnt⟩

/-- **C10**: no probe ever runs with `capacity == 0` and no bucket
access is out of bounds — on any well-formed table, `tableGet`,
`tableDelete` and `tableFindString` return false/NULL immediately when
`count == 0`, all four probing operations have a defined result (in
the model a division by zero or an out-of-bounds probe yields `none`),
whenever the table is nonempty its capacity is positive, and every
probe step lands inside the bucket array. -/
theorem C10_no_probe_at_zero_capacity (H : Heap) (t : Table) (hwf : TableWF H t)
    (k : Nat) (v : Value) (chars : List Nat) (hash : Nat) :
    (t.count = 0 → tableGet H t k = some none ∧ tableDelete H t k = some (false, t) ∧
      tableFindString H t chars hash = some none) ∧
    (tableGet H t k).isSome ∧ (tableSet H t k v).isSome ∧
    (tableDelete H t k).isSome ∧ (tableFindString H t chars hash).isSome ∧
    (¬ t.count = 0 → 0 < t.capacity) ∧
    (∀ home j, 0 < t.capacity → probe t.capacity home j < t.entries.length) := by
  refine ⟨?_, ?_, ?_, ?_, ?_, ?_, ?_⟩
  · intro hc
    refine ⟨?_, ?_, ?_⟩
    · rw [tableGet, if_pos hc]
    · rw [tableDelete, if_pos hc]
    · rw [tableFindString, if_pos hc]
  · rw [tableGet_spec k hwf]
    rfl
  · obtain ⟨b, t', hset, _⟩ := tableSet_spec k v hwf
    rw [hset]
    rfl
  · obtain ⟨b, t', hdel, _⟩ := tableDelete_spec k hwf
    rw [hdel]
    rfl
  · obtain ⟨r, hfind, _⟩ := tableFindString_spec chars hash hwf
    rw [hfind]
    rfl
  · intro hc
    have hload := hwf.load
    by_contra hcap
    have : t.capacity = 0 := by omega
    rw [this] at hload
    omega
  · intro home j hcap
    rw [hwf.wf.1]
    exact probe_lt hcap home j

/-- Witness for C10 at the fresh table (count 0, capacity 0) on the
empty heap. -/
theorem C10_no_probe_at_zero_capacity_witness :
    TableWF [] initTable ∧
    ((initTable.count = 0 → tableGet [] initTable 0 = some none ∧
        tableDelete [] initTable 0 = some (false, initTable) ∧
        tableFindString [] initTable [] 0 = some none) ∧
      (tableGet [] initTable 0).isSome ∧ (tableSet [] initTable 0 Value.vNil).isSome ∧
      (tableDelete [] initTable 0).isSome ∧ (tableFindString [] initTable [] 0).isSome ∧
      (¬ initTable.count = 0 → 0 < initTable.capacity) ∧
      (∀ home j, 0 < initTable.capacity →
        probe initTable.capacity home j < initTable.entries.length)) :=
  ⟨tableWF_init [],
    C10_no_probe_at_zero_capacity [] initTable (tableWF_init []) 0 Value.vNil [] 0⟩

/-! ### VM dispatch -/

/-- Dispatch on a fetched `OP_SET_GLOBAL` byte selects the
`OP_SET_GLOBAL` case of the switch. -/
theorem step_set_global {σ0 σ1 : VMSt} (h : readByte σ0 = some (OP_SET_GLOBAL, σ1)) :
    step σ0 = ((readString σ1).bind fun sn =>
        (peek sn.2 0).bind fun v =>
          (tableSet sn.2.heap sn.2.globals sn.1 v).bind fun s2 =>
            if s2.1 then
              (tableDelete sn.2.heap s2.2 sn.1).map fun s3 =>
                StepRes.halt InterpretResult.INTERPRET_RUNTIME_ERROR
                  (runtimeError { sn.2 with globals := s3.2 }
                    (undefinedVariableMsg sn.2.heap sn.1))
            else some (StepRes.next { sn.2 with globals := s2.2 })) := by
  rw [step, h, Option.some_bind]
  norm_num [OP_CONSTANT, OP_NIL, OP_TRUE, OP_FALSE, OP_POP, OP_GET_GLOBAL,
    OP_DEFINE_GLOBAL, OP_SET_GLOBAL]

/-- Dispatch on a fetched `OP_ADD` byte selects the `OP_ADD` case of
the switch. -/
theorem step_add {σ0 σ1 : VMSt} (h : readByte σ0 = some (OP_ADD, σ1)) :
    step σ0 = ((peek σ1 0).bind fun v0 =>
      (peek σ1 1).bind fun v1 =>
        match v0, v1 with
        | Value.vObj _, Value.vObj _ => (concatenate σ1).map StepRes.next
        | Value.vNum _, Value.vNum _ =>
          (pop σ1).bind fun sb =>
            (pop sb.2).bind fun sa =>
              match sa.1, sb.1 with
              | Value.vNum a, Value.vNum b =>
                (push sa.2 (Value.vNum (a + b))).map StepRes.next
              | _, _ => none
        | _, _ =>
          some (StepRes.halt InterpretResult.INTERPRET_RUNTIME_ERROR
            (runtimeError σ1 "Operands must be two numbers or two strings."))) := by
  rw [step, h, Option.some_bind]
  norm_num [OP_CONSTANT, OP_NIL, OP_TRUE, OP_FALSE, OP_POP, OP_GET_GLOBAL,
    OP_DEFINE_GLOBAL, OP_SET_GLOBAL, OP_EQUAL, OP_GREATER, OP_LESS, OP_ADD]

/-- The switch of vm.c `run` has no case for `OP_GET_LOCAL` or
`OP_SET_LOCAL`: fetching either byte falls through every case and the
loop continues at the next byte, the instruction having had no
effect. -/
theorem step_locals_fall_through {σ0 σ1 : VMSt} {b : Int}
    (h : readByte σ0 = some (b, σ1)) (hb : b = OP_GET_LOCAL ∨ b = OP_SET_LOCAL) :
    step σ0 = some (StepRes.next σ1) := by
  rcases hb with hb | hb <;>
  · subst hb
    rw [step, h, Option.some_bind]
    norm_num [OP_CONSTANT, OP_NIL, OP_TRUE, OP_FALSE, OP_POP, OP_GET_LOCAL, OP_SET_LOCAL,
      OP_GET_GLOBAL, OP_DEFINE_GLOBAL, OP_SET_GLOBAL, OP_EQUAL, OP_GREATER, OP_LESS,
      OP_ADD, OP_SUBTRACT, OP_MULTIPLY, OP_DIVIDE, OP_NOT, OP_NEGATE, OP_PRINT,
      OP_RETURN]

/-- **C1**: contrary to the claimed `OP_GET_LOCAL`/`OP_SET_LOCAL`
semantics, the run loop's switch has no case for either opcode: the
fetched instruction is silently ignored (first conjunct), and its
operand byte is then decoded as the next instruction.  Concretely,
running `[OP_GET_LOCAL, 1, OP_RETURN]` on stack `[7, 8]` (top first)
does not push `stack[1]`: the operand byte 1 is executed as `OP_NIL`,
leaving `[nil, 7, 8]`; and running `[OP_SET_LOCAL, 1, OP_RETURN]` on
`[7, 9]` does not store `peek(0)` into `stack[1]`: it leaves the stack
`[nil, 7, 9]` instead of `[7, 9]` with slot 1 overwritten. -/
theorem C1_locals_opcodes_ignored :
    (∀ σ0 σ1 : VMSt, ∀ b : Int, readByte σ0 = some (b, σ1) →
      (b = OP_GET_LOCAL ∨ b = OP_SET_LOCAL) → step σ0 = some (StepRes.next σ1)) ∧
    (∃ σ', run 3 vm1 = some (InterpretResult.INTERPRET_OK, σ') ∧
      σ'.stack = [Value.vNil, Value.vNum 7, Value.vNum 8]) ∧
    (∃ σ', run 3 vm1s = some (InterpretResult.INTERPRET_OK, σ') ∧
      σ'.stack = [Value.vNil, Value.vNum 7, Value.vNum 9]) := by
  exact ⟨fun σ0 σ1 b h hb => step_locals_fall_through h hb, ⟨_, rfl, rfl⟩, ⟨_, rfl, rfl⟩⟩

/-- **C7**: executing `OP_SET_GLOBAL` whose name operand is not a live
key of the globals table reports `Undefined variable 'NAME'.`, makes
`run` return `INTERPRET_RUNTIME_ERROR`, and first deletes the key that
`tableSet` accidentally inserted: after the error the globals table
has no live entry for the name, and every other name's binding is
untouched. -/
theorem C7_set_global_undefined {σ : VMSt} {nm : Nat} {v : Value}
    (hip0 : 0 ≤ σ.ip) (hip1 : σ.ip + 1 < σ.chunk.count)
    (hb : σ.chunk.code σ.ip = OP_SET_GLOBAL)
    (hc0 : 0 ≤ σ.chunk.code (σ.ip + 1))
    (hcl : (σ.chunk.code (σ.ip + 1)).toNat < σ.chunk.constants.length)
    (hcv : σ.chunk.constants[(σ.chunk.code (σ.ip + 1)).toNat]? = some (Value.vObj nm))
    (hpk : σ.stack[0]? = some v)
    (hwf : TableWF σ.heap σ.globals)
    (habs : lookupE σ.globals.entries nm = none) :
    ∃ σ', step σ = some (StepRes.halt InterpretResult.INTERPRET_RUNTIME_ERROR σ') ∧
      (∀ fuel, run (fuel + 1) σ = some (InterpretResult.INTERPRET_RUNTIME_ERROR, σ')) ∧
      σ'.errors = σ.errors ++ [undefinedVariableMsg σ.heap nm,
        "[line " ++ toString (σ.chunk.lines (σ.ip + 1)) ++ "] in script"] ∧
      σ'.stack = [] ∧
      lookupE σ'.globals.entries nm = none ∧
      (∀ k, ¬ k = nm → lookupE σ'.globals.entries k = lookupE σ.globals.entries k) := by
  have hrb : readByte σ = some (OP_SET_GLOBAL, { σ with ip := σ.ip + 1 }) := by
    rw [readByte, if_pos ⟨hip0, by omega⟩, hb]
  have hrb2 : readByte { σ with ip := σ.ip + 1 } =
      some (σ.chunk.code (σ.ip + 1), { σ with ip := σ.ip + 1 + 1 }) := by
    rw [readByte]
    exact if_pos ⟨show (0 : Int) ≤ σ.ip + 1 by omega,
      show σ.ip + 1 < σ.chunk.count by omega⟩
  have hget : σ.chunk.constants.get ⟨(σ.chunk.code (σ.ip + 1)).toNat, hcl⟩
      = Value.vObj nm := by
    have := List.getElem?_eq_getElem hcl
    rw [this] at hcv
    exact Option.some.inj hcv
  have hrc : readConstant { σ with ip := σ.ip + 1 } =
      some (Value.vObj nm, { σ with ip := σ.ip + 1 + 1 }) := by
    rw [readConstant, hrb2, Option.some_bind]
    rw [dif_pos (⟨hc0, hcl⟩ : 0 ≤ σ.chunk.code (σ.ip + 1) ∧
      (σ.chunk.code (σ.ip + 1)).toNat <
        ({ σ with ip := σ.ip + 1 + 1 } : VMSt).chunk.constants.length)]
    rw [show ({ σ with ip := σ.ip + 1 + 1 } : VMSt).chunk.constants.get
      ⟨(σ.chunk.code (σ.ip + 1)).toNat, hcl⟩ = Value.vObj nm from hget]
  have hrs : readString { σ with ip := σ.ip + 1 } =
      some (nm, { σ with ip := σ.ip + 1 + 1 }) := by
    rw [readString, hrc, Option.some_bind]
  obtain ⟨bset, t1, hset, hwf1, hlk1, hnew1⟩ := tableSet_spec nm v hwf
  have hbset : bset = true := hnew1.mpr habs
  subst hbset
  obtain ⟨bdel, t2, hdel, hwf2, hbiff, hlk2, _⟩ := tableDelete_spec nm hwf1
  have hbdel : bdel = true := hbiff.mpr (by rw [hlk1 nm, if_pos rfl]; simp)
  subst hbdel
  refine ⟨runtimeError { ({ σ with ip := σ.ip + 1 + 1 } : VMSt) with globals := t2 }
      (undefinedVariableMsg σ.heap nm), ?_, ?_, ?_, rfl, ?_, ?_⟩
  · rw [step_set_global hrb, hrs, Option.some_bind]
    show ((σ.stack[0]?).bind fun v => _) = _
    rw [hpk, Option.some_bind]
    show ((tableSet σ.heap σ.globals nm v).bind fun s2 => _) = _
    rw [hset, Option.some_bind]
    rw [if_pos rfl]
    show (tableDelete σ.heap t1 nm).map _ = _
    rw [hdel]
    rfl
  · intro fuel
    rw [run]
    rw [step_set_global hrb, hrs, Option.some_bind]
    show (((σ.stack[0]?).bind fun v => _).bind fun r => _) = _
    rw [hpk, Option.some_bind]
    show (((tableSet σ.heap σ.globals nm v).bind fun s2 => _).bind fun r => _) = _
    rw [hset, Option.some_bind, if_pos rfl]
    show (((tableDelete σ.heap t1 nm).map _).bind fun r => _) = _
    rw [hdel]
    rfl
  · show σ.errors ++ [_, _] = _
    have hline : σ.ip + 1 + 1 - 1 = σ.ip + 1 := by omega
    rw [show ({ ({ σ with ip := σ.ip + 1 + 1 } : VMSt) with globals := t2 } : VMSt).ip
      = σ.ip + 1 + 1 from rfl]
    rw [hline]
  · show lookupE t2.entries nm = none
    rw [hlk2 nm, if_pos rfl]
  · intro k hk
    show lookupE t2.entries k = lookupE σ.globals.entries k
    rw [hlk2 k, if_neg hk, hlk1 k, if_neg hk]

/-- Witness for C7: the concrete VM `vm7` (bytecode
`[OP_SET_GLOBAL, 0, OP_RETURN]`, name constant the string "x" interned
at heap index 0, one value on the stack, empty globals table). -/
theorem C7_set_global_undefined_witness :
    ∃ σ', step vm7 = some (StepRes.halt InterpretResult.INTERPRET_RUNTIME_ERROR σ') ∧
      (∀ fuel, run (fuel + 1) vm7 = some (InterpretResult.INTERPRET_RUNTIME_ERROR, σ')) ∧
      σ'.errors = vm7.errors ++ [undefinedVariableMsg vm7.heap 0,
        "[line " ++ toString (vm7.chunk.lines (vm7.ip + 1)) ++ "] in script"] ∧
      σ'.stack = [] ∧
      lookupE σ'.globals.entries 0 = none ∧
      (∀ k, ¬ k = 0 → lookupE σ'.globals.entries k = lookupE vm7.globals.entries k) :=
  @C7_set_global_undefined vm7 0 (Value.vNum 1) (by decide) (by decide) (by decide)
    (by decide) (by decide) (by decide) rfl (tableWF_init _) rfl

/-- **C3**: `writeChunk` violates the one-byte append contract.  For
the two calls `writeChunk(c, 7, 1); writeChunk(c, 9, 2)` on a fresh
chunk there is NO leftover memory content of the arrays under which
the result is the contracted one (`count = 2`, `code[0] = 7`,
`code[1] = 9`, `lines[0] = 1`, `lines[1] = 2`): the first call reads
`lines[-1]` out of bounds and then either bumps `count` by 2 while
leaving `code[0]` unwritten, or, when the garbage comparisons happen
to take the other branches, miscounts the line array instead. -/
theorem C3_write_chunk_not_append (gc gl : Int → Int) :
    ¬ ((chunkOf gc gl [(7, 1), (9, 2)]).count = 2 ∧
       (chunkOf gc gl [(7, 1), (9, 2)]).code 0 = 7 ∧
       (chunkOf gc gl [(7, 1), (9, 2)]).code 1 = 9 ∧
       (chunkOf gc gl [(7, 1), (9, 2)]).lines 0 = 1 ∧
       (chunkOf gc gl [(7, 1), (9, 2)]).lines 1 = 2) := by
  intro h
  simp only [chunkOf, List.foldl_cons, List.foldl_nil, initChunkM, writeChunkM,
    growCapacityI, updF] at h
  norm_num at h
  split_ifs at h <;> simp only [updF] at * <;> norm_num at * <;> omega

/-- **C9**: the `OP_ADD` case of the switch does have the claimed
three-way semantics — two numbers add, two strings concatenate to an
interned string, any other combination reports
`Operands must be two numbers or two strings.` and halts `run` with
`INTERPRET_RUNTIME_ERROR` — but the end-to-end part of the claim
fails: interpreting `1 + "a";` need not end in a runtime error (exit
code 70).  With the leftover array memory `gc9`/`gl9`, the broken
`writeChunk` leaves the first executed byte a leftover `OP_RETURN`
(`code[0]` is never written), so the program returns `INTERPRET_OK`
without ever reaching `OP_ADD`. -/
theorem C9_op_add_and_failing_input :
    (∀ σ0 σ1 : VMSt, readByte σ0 = some (OP_ADD, σ1) →
      (∀ (a b : ℚ) (rest : List Value),
        σ1.stack = Value.vNum b :: Value.vNum a :: rest → rest.length < 256 →
        step σ0 = some (StepRes.next { σ1 with stack := Value.vNum (a + b) :: rest })) ∧
      (∀ (bp ap : Nat) (rest : List Value),
        σ1.stack = Value.vObj bp :: Value.vObj ap :: rest →
        StrInv ⟨σ1.heap, σ1.strings⟩ → rest.length < 256 →
        ∃ σ' p, step σ0 = some (StepRes.next σ') ∧
          σ'.stack = Value.vObj p :: rest ∧
          (deref σ'.heap p).chars
            = (deref σ1.heap ap).chars ++ (deref σ1.heap bp).chars) ∧
      (∀ (v0 v1 : Value) (rest : List Value),
        σ1.stack = v0 :: v1 :: rest →
        (isStringV v0 && isStringV v1) = false →
        (isNumberV v0 && isNumberV v1) = false →
        step σ0 = some (StepRes.halt InterpretResult.INTERPRET_RUNTIME_ERROR
          (runtimeError σ1 "Operands must be two numbers or two strings.")))) ∧
    interpretModel gl9 gc9 10 c9toks = some InterpretResult.INTERPRET_OK := by
  refine ⟨?_, by rfl⟩
  intro σ0 σ1 h
  have hpeek : ∀ (v0 v1 : Value) (rest : List Value), σ1.stack = v0 :: v1 :: rest →
      peek σ1 0 = some v0 ∧ peek σ1 1 = some v1 := by
    intro v0 v1 rest hstack
    constructor <;> (rw [peek, hstack]; simp)
  refine ⟨?_, ?_, ?_⟩
  · intro a b rest hstack hlen
    obtain ⟨hp0, hp1⟩ := hpeek _ _ _ hstack
    rw [step_add h, hp0, Option.some_bind, hp1, Option.some_bind]
    have hpop1 : pop σ1 = some (Value.vNum b, { σ1 with stack := Value.vNum a :: rest }) := by
      rw [pop, hstack]
    show (pop σ1).bind _ = _
    rw [hpop1, Option.some_bind]
    show (pop { σ1 with stack := Value.vNum a :: rest }).bind _ = _
    rw [show pop { σ1 with stack := Value.vNum a :: rest }
      = some (Value.vNum a, { σ1 with stack := rest }) from rfl, Option.some_bind]
    show (push { σ1 with stack := rest } (Value.vNum (a + b))).map _ = _
    rw [push, if_pos (show ({ σ1 with stack := rest } : VMSt).stack.length < 256 from hlen)]
    rfl
  · intro bp ap rest hstack hinv hlen
    obtain ⟨hp0, hp1⟩ := hpeek _ _ _ hstack
    obtain ⟨σ2, p, _, htake, hinv2, hint, _, _⟩ :=
      internBody_spec hinv ((deref σ1.heap ap).chars ++ (deref σ1.heap bp).chars)
    refine ⟨{ σ1 with heap := σ2.heap, strings := σ2.strings, stack := Value.vObj p :: rest },
      p, ?_, rfl, hint.2⟩
    rw [step_add h, hp0, Option.some_bind, hp1, Option.some_bind]
    have hconc : concatenate σ1
        = some { σ1 with heap := σ2.heap, strings := σ2.strings, stack := Value.vObj p :: rest } := by
      rw [concatenate, hstack]
      show (takeString ⟨σ1.heap, σ1.strings⟩ _).bind _ = _
      rw [htake, Option.some_bind]
      show push _ (Value.vObj p) = _
      rw [push, if_pos (show rest.length < 256 from hlen)]
    show (concatenate σ1).map _ = _
    rw [hconc]
    rfl
  · intro v0 v1 rest hstack hs hn
    obtain ⟨hp0, hp1⟩ := hpeek _ _ _ hstack
    rw [step_add h, hp0, Option.some_bind, hp1, Option.some_bind]
    rcases v0 with _ | b0 | x0 | p0 <;> rcases v1 with _ | b1 | x1 | p1 <;>
      simp_all [isNumberV, isStringV]

set_option maxHeartbeats 4000000 in
/-- Concrete run of the compiler on the token stream of
`var a = 10; { var a = a + 1; print a; } print a;`: it sets
`hadError` and reports exactly the own-initializer error. -/
theorem compile_c2_eval :
    (compile 100 c2toks).map (fun st => (st.hadError, st.errors))
      = some (true, [c2msg]) := by
  rfl

/-- **C2** (corrected): interpreting
`var a = 10; { var a = a + 1; print a; } print a;` does not print
`11` and `10` with result `INTERPRET_OK`.  The inner initializer
`a + 1` resolves to the just-declared, still-uninitialised inner `a`
(sentinel depth −1) in `resolveLocal`, so compilation fails with
`[line 1] Error at 'a': Can't read local variable in its own
initializer.` and `interpret` returns `INTERPRET_COMPILE_ERROR`
(process exit code 65), executing nothing. -/
theorem C2_shadowed_initializer_is_compile_error :
    (∃ st, compile 100 c2toks = some st ∧ st.hadError = true ∧ st.errors = [c2msg]) ∧
    ∀ gl gc : Int → Int,
      interpretModel gl gc 100 c2toks = some InterpretResult.INTERPRET_COMPILE_ERROR := by
  obtain ⟨st, hst, hflags⟩ := Option.map_eq_some'.mp compile_c2_eval
  have hhe : st.hadError = true := by
    have h1 := congrArg Prod.fst hflags
    simpa using h1
  have herr : st.errors = [c2msg] := by
    have h1 := congrArg Prod.snd hflags
    simpa using h1
  refine ⟨⟨st, hst, hhe, herr⟩, ?_⟩
  intro gl gc
  rw [interpretModel, hst, Option.some_bind, if_pos hhe]

/-- Counterexample to the original C2 claim at a concrete input: with
all-zero leftover array memory, interpreting the program yields
`INTERPRET_COMPILE_ERROR`, not the claimed `INTERPRET_OK`. -/
theorem C2_original_claim_counterexample :
    interpretModel (fun _ => 0) (fun _ => 0) 100 c2toks
      = some InterpretResult.INTERPRET_COMPILE_ERROR := by
  obtain ⟨st, hst, hflags⟩ := Option.map_eq_some'.mp compile_c2_eval
  have hhe : st.hadError = true := by
    have h1 := congrArg Prod.fst hflags
    simpa using h1
  rw [interpretModel, hst, Option.some_bind, if_pos hhe]

end Clox
